import Mathlib

/-!
Verification of the report storage and aggregation core of a time-tracking
web application: the generic object-store engine (db.ts) and the report
repository built on it (report-db.ts).

Modelling conventions:
* Strings are modelled as Lean strings; the backing store compares string
  keys lexicographically by code unit, which for the basic-plane strings
  used as report ids coincides with comparison by code point (keyLt below).
* JS numbers are modelled as rationals; integer counts stay exact.
* A store is modelled as the list of its records in ascending primary-key
  order, which is the order cursors and getAll enumerate.
* Asynchronous methods are modelled as pure state-passing functions; a
  rejected promise is an error value.
-/

/-! ### String primitives (models of the JS string operations used) -/

/-- ASCII lower-casing of one character (model of toLowerCase on the
alphabets exercised here). -/
def charToLower (c : Char) : Char :=
  if 65 ≤ c.toNat ∧ c.toNat ≤ 90 then Char.ofNat (c.toNat + 32) else c

/-- Model of String.prototype.toLowerCase. -/
def strToLower (s : String) : String := ⟨s.data.map charToLower⟩

/-- Whitespace class of the regex \s, restricted to the ASCII whitespace
that can occur in the queries and fields modelled here. -/
def isWs (c : Char) : Bool := c == ' ' || c == '\t' || c == '\n' || c == '\r'

/-- Split a character list at every character satisfying p (model of
String.prototype.split with a single-character-class regex). -/
def splitOnPredL (p : Char → Bool) : List Char → List (List Char)
  | [] => [[]]
  | c :: cs =>
    if p c then [] :: splitOnPredL p cs
    else
      match splitOnPredL p cs with
      | [] => [[c]]
      | w :: ws => (c :: w) :: ws

/-- Split a string at every character satisfying p. -/
def strSplitOn (s : String) (p : Char → Bool) : List String :=
  (splitOnPredL p s.data).map String.mk

/-- Model of String.prototype.trim. -/
def strTrim (s : String) : String :=
  ⟨((s.data.dropWhile isWs).reverse.dropWhile isWs).reverse⟩

/-- Does the first list start with the second one? -/
def startsWithL : List Char → List Char → Bool
  | _, [] => true
  | [], _ :: _ => false
  | a :: as, b :: bs => a == b && startsWithL as bs

/-- Does s start with p? -/
def strStartsWith (s p : String) : Bool := startsWithL s.data p.data

/-- Does the first list contain the second as a contiguous sublist?
(model of String.prototype.includes). -/
def containsSubL (pat : List Char) : List Char → Bool
  | [] => startsWithL [] pat
  | c :: ts => startsWithL (c :: ts) pat || containsSubL pat ts

/-- Does s contain pat as a substring? -/
def strContainsSub (s pat : String) : Bool := containsSubL pat.data s.data

/-- Lexicographic comparison of character lists by code point: the order
the backing store uses on basic-plane string keys. -/
def keyLtL : List Char → List Char → Bool
  | [], [] => false
  | [], _ :: _ => true
  | _ :: _, [] => false
  | a :: as, b :: bs =>
    if a.toNat < b.toNat then true
    else if b.toNat < a.toNat then false
    else keyLtL as bs

/-- Key order on strings used by the backing store. -/
def keyLt (a b : String) : Bool := keyLtL a.data b.data

/-- The maximal sentinel code unit String.fromCharCode(0xffff) used by the
range factory for string-prefix scans. -/
def maxChar : Char := Char.ofNat 0xFFFF

/-! ### Full-text search scoring (db.ts, fullTextSearch and its helpers) -/

/-- Model of a JS value reachable through the dot-path field access of
fullTextSearch: a string, an object, or some other primitive. -/
inductive JsVal where
  | str (s : String)
  | obj (fields : List (String × JsVal))
  | num (q : ℚ)

/-- Options record of fullTextSearch. -/
structure SearchOptions where
  limit : Option Nat
  caseSensitive : Bool
  matchWholeWord : Bool
  fuzzyMatch : Bool
  fuzzyMatchThreshold : Option ℚ

/-- Word characters of the regex class \w. -/
def isWordChar (c : Char) : Bool := c.isAlphanum || c == '_'

/-- Is there a word boundary between the two surrounding characters
(none meaning the edge of the text)? -/
def boundaryB (left right : Option Char) : Bool :=
  (match left with | none => false | some c => isWordChar c)
    != (match right with | none => false | some c => isWordChar c)

/-- Does the nonempty pattern match at the head of t with word boundaries
on both sides, prev being the character just before this position? -/
def wwAt (prev : Option Char) (t term : List Char) : Bool :=
  startsWithL t term &&
  boundaryB prev term.head? &&
  boundaryB term.getLast? (t.drop term.length).head?

/-- Scan every position of t for a boundary-delimited occurrence of term;
models the test of the regex built from a metacharacter-free term wrapped
in word boundaries. -/
def wwScan (prev : Option Char) (t term : List Char) : Bool :=
  wwAt prev t term ||
  match t with
  | [] => false
  | c :: cs => wwScan (some c) cs term

/-- Whole-word occurrence test for a nonempty, metacharacter-free term. -/
def wholeWordTest (text term : String) : Bool := wwScan none text.data term.data

/-- Exact-match score of one term against one field value (db.ts
getExactMatchScore).  The term is already lower-cased by the caller when
the search is case-insensitive, so the redundant i-flag of the source's
regex is dropped. -/
def getExactMatchScore (o : SearchOptions) (text term : String) : ℚ :=
  let processedText := if o.caseSensitive then text else strToLower text
  if o.matchWholeWord then
    if wholeWordTest processedText term then 1 else 0
  else
    if strContainsSub processedText term then 1 else 0

/-- One step of the Levenshtein matrix fill (db.ts levenshteinDistance,
inner loop over b): given the previous row and the value to the left,
produce the rest of the current row. -/
def levRowNext (a : Char) : List Char → List Nat → Nat → List Nat
  | [], _, _ => []
  | b :: bs, p0 :: p1 :: ps, left =>
    let cost := if a == b then 0 else 1
    let v := Nat.min (Nat.min (p1 + 1) (left + 1)) (p0 + cost)
    v :: levRowNext a bs (p1 :: ps) v
  | _ :: _, _, _ => []

/-- Row-by-row matrix fill (db.ts levenshteinDistance, outer loop over a). -/
def levAux (bs : List Char) : List Char → List Nat → Nat → List Nat
  | [], row, _ => row
  | a :: as, row, i => levAux bs as ((i + 1) :: levRowNext a bs row (i + 1)) (i + 1)

/-- Levenshtein edit distance as computed by db.ts: final cell of the
dynamic-programming matrix. -/
def levenshteinDistance (a b : String) : Nat :=
  (levAux b.data a.data (List.range (b.data.length + 1)) 0).getLastD 0

/-- The threshold actually used by getFuzzyMatchScore:
options.fuzzyMatchThreshold || 0.7, so any falsy value (absent or 0)
falls back to the default. -/
def resolveThreshold (t : Option ℚ) : ℚ :=
  match t with
  | some v => if v = 0 then 7 / 10 else v
  | none => 7 / 10

/-- Fuzzy-match score of one term against one field value (db.ts
getFuzzyMatchScore): terms of length at most 3 fall back to exact
matching; otherwise the best similarity over the whitespace tokens of the
field is kept, skipping tokens shorter than 3 characters and keeping only
similarities at or above the threshold. -/
def getFuzzyMatchScore (o : SearchOptions) (text term : String) : ℚ :=
  if term.length ≤ 3 then getExactMatchScore o text term
  else
    let processedText := if o.caseSensitive then text else strToLower text
    let words := strSplitOn processedText isWs
    words.foldl
      (fun bestScore word =>
        if word.length < 3 then bestScore
        else
          let distance := levenshteinDistance word term
          let maxLength := max word.length term.length
          let similarityScore : ℚ := 1 - (distance : ℚ) / (maxLength : ℚ)
          let threshold := resolveThreshold o.fuzzyMatchThreshold
          if threshold ≤ similarityScore ∧ bestScore < similarityScore then
            similarityScore
          else bestScore)
      0

/-- Dot-path step of the field extraction in fullTextSearch:
obj && obj[key] !== undefined ? obj[key] : "".  A missing key, a string or
another primitive all continue with the empty string; the falsy primitives
would instead continue with themselves in JS, but every such value is
skipped by the final string check with the same zero score. -/
def jsGet (v : JsVal) (k : String) : JsVal :=
  match v with
  | .obj fields =>
    match fields.find? (fun p => p.1 == k) with
    | some p => p.2
    | none => .str ""
  | _ => .str ""

/-- Field value of an item under a dot-separated path. -/
def getFieldValue (item : JsVal) (field : String) : JsVal :=
  (strSplitOn field (fun c => c == '.')).foldl jsGet item

/-- Total score of one item: the sum over searched fields (skipping
non-string values) and query terms of the per-term score. -/
def scoreItem (o : SearchOptions) (fields queryTerms : List String) (item : JsVal) : ℚ :=
  fields.foldl
    (fun totalScore field =>
      match getFieldValue item field with
      | .str fieldValue =>
        queryTerms.foldl
          (fun acc term =>
            acc +
              (if o.fuzzyMatch then getFuzzyMatchScore o fieldValue term
               else getExactMatchScore o fieldValue term))
          totalScore
      | _ => totalScore)
    0

/-- Descending-score order used to sort the search results. -/
def scoreGE (x y : JsVal × ℚ) : Prop := y.2 ≤ x.2

instance : DecidableRel scoreGE := fun x y => inferInstanceAs (Decidable (y.2 ≤ x.2))

instance : IsTotal (JsVal × ℚ) scoreGE := ⟨fun x y => le_total y.2 x.2⟩

instance : IsTrans (JsVal × ℚ) scoreGE := ⟨fun _ _ _ h h' => le_trans h' h⟩

/-- Final truncation step of fullTextSearch: the slice is applied only
when a truthy positive limit is given. -/
def applyLimit (lim : Option Nat) (l : List (JsVal × ℚ)) : List (JsVal × ℚ) :=
  match lim with
  | some n => if 0 < n then l.take n else l
  | none => l

/-- db.ts fullTextSearch on the record list returned by getAll: empty or
whitespace-only queries return every record with score zero; otherwise
records are scored per term and field, zero scores dropped, sorted by
descending score (insertionSort with a non-strict order models the stable
JS sort) and truncated to a positive limit. -/
def fullTextSearch (items : List JsVal) (query : String) (fields : List String)
    (o : SearchOptions) : List (JsVal × ℚ) :=
  if strTrim query = "" then items.map (fun item => (item, 0))
  else
    let processedQuery := if o.caseSensitive then query else strToLower query
    let queryTerms := (strSplitOn processedQuery isWs).filter (fun t => 0 < t.length)
    let results := items.map (fun item => (item, scoreItem o fields queryTerms item))
    let sortedResults := (results.filter (fun r => decide (0 < r.2))).insertionSort scoreGE
    applyLimit o.limit sortedResults

/-! ### Key ranges and the generic object store (db.ts, IndexedDB class) -/

/-- A key range over string primary keys. -/
structure KeyRange where
  lower : Option String
  upper : Option String
  lowerOpen : Bool
  upperOpen : Bool

/-- Membership of a key in a range. -/
def inKeyRange (rg : KeyRange) (k : String) : Bool :=
  (match rg.lower with
    | none => true
    | some lo => if rg.lowerOpen then keyLt lo k else !keyLt k lo) &&
  (match rg.upper with
    | none => true
    | some up => if rg.upperOpen then keyLt k up else !keyLt up k)

namespace IndexedDB

/-- createRange.lessThan: exclusive upper bound. -/
def lessThanRange (upper : String) : KeyRange := ⟨none, some upper, false, true⟩

/-- createRange with the source name p-r-e-f-i-x: the bounded range from
the given string (inclusive) to the string followed by the maximal
sentinel character (exclusive), used for string head-anchored scans. -/
def headRange (p : String) : KeyRange :=
  ⟨some p, some (p ++ String.mk [maxChar]), false, true⟩

section Store

variable {α : Type}

/-- get: the record stored under a key, the store being the list of its
records in ascending key order. -/
def idbGet (key : α → String) (store : List α) (k : String) : Option α :=
  store.find? (fun r => key r == k)

/-- Insert a record at its key position (the backing store keeps records
sorted by primary key). -/
def insertSorted (key : α → String) (r : α) : List α → List α
  | [] => [r]
  | x :: xs => if keyLt (key r) (key x) then r :: x :: xs else x :: insertSorted key r xs

/-- add: insert a new record, rejecting with a constraint error when a
record with the same primary key exists. -/
def idbAdd (key : α → String) (store : List α) (r : α) : Except String (List α) :=
  match idbGet key store (key r) with
  | some _ => .error "Error adding item: ConstraintError"
  | none => .ok (insertSorted key r store)

/-- put: insert or replace by primary key. -/
def idbPut (key : α → String) (store : List α) (r : α) : List α :=
  insertSorted key r (store.filter (fun x => !(key x == key r)))

/-- update (db.ts update): read the current record, reject without
touching the store when it is absent, otherwise persist the updated
record via put and resolve with it. -/
def idbUpdate (key : α → String) (store : List α) (k : String) (updateFn : α → α) :
    List α × Except String α :=
  match idbGet key store k with
  | none => (store, .error ("Item with key " ++ k ++ " not found for update"))
  | some currentValue =>
    let updatedValue := updateFn currentValue
    (idbPut key store updatedValue, .ok updatedValue)

/-- delete: remove the record with the given key (a no-op when absent). -/
def idbDelete (key : α → String) (store : List α) (k : String) : List α :=
  store.filter (fun r => !(key r == k))

/-- addMultiple: add every item inside one transaction; a single failed
add aborts the transaction, rolling the store back to its prior state. -/
def idbAddMultiple (key : α → String) (store : List α) (items : List α) :
    List α × Option String :=
  if (items.map key).Nodup ∧ ∀ i ∈ items, (idbGet key store (key i)).isNone then
    (items.foldl (fun s i => insertSorted key i s) store, none)
  else
    (store, some "Error in bulk add")

/-- search restricted to the parameters the repository uses: an optional
range over the primary key, traversed by an ascending cursor. -/
def idbSearch (key : α → String) (store : List α) (range : Option KeyRange) : List α :=
  match range with
  | none => store
  | some rg => store.filter (fun r => inKeyRange rg (key r))

end Store

end IndexedDB

/-! ### Report data model (report-db.ts) -/

structure PieChartData where
  name : String
  value : ℚ
deriving DecidableEq

structure QuickReportData where
  category : String
  percent : ℚ
deriving DecidableEq

structure Activity where
  activity : String
  count : ℚ
deriving DecidableEq

structure DetailedReportData where
  category : String
  activities : List Activity
deriving DecidableEq

structure ReportData where
  pieChart : List PieChartData
  quickReport : List QuickReportData
  detailedReport : List DetailedReportData
deriving DecidableEq

structure DailyReport where
  id : String
  date : String
  title : String
  data : ReportData
deriving DecidableEq

structure YearlyReport where
  id : String
  year : String
  title : String
  data : ReportData
deriving DecidableEq

/-- The two stores owned by the report database. -/
structure ReportDB where
  daily : List DailyReport
  yearly : List YearlyReport
deriving DecidableEq

/-! ### Insertion-ordered map (model of the JS Map used by the merge) -/

/-- Lookup in an insertion-ordered association list. -/
def mapFind {β : Type} (m : List (String × β)) (k : String) : Option β :=
  (m.find? (fun p => p.1 == k)).map (fun p => p.2)

/-- JS Map.set: replace in place when the key exists (keeping its
insertion position), append otherwise. -/
def mapSet {β : Type} (m : List (String × β)) (k : String) (v : β) : List (String × β) :=
  match m with
  | [] => [(k, v)]
  | (k', v') :: rest => if k' = k then (k, v) :: rest else (k', v') :: mapSet rest k v

/-- The keys of an association list in insertion order. -/
def keysOf {β : Type} (m : List (String × β)) : List String := m.map (fun p => p.1)

/-! ### The merge algorithm (report-db.ts mergeReportData) -/

/-- Accumulate the pie-chart slices of one report into the per-category
totals and the grand total. -/
def mergePie (p : List (String × ℚ) × ℚ) (items : List PieChartData) : List (String × ℚ) × ℚ :=
  items.foldl
    (fun p item =>
      (mapSet p.1 item.name ((mapFind p.1 item.name).getD 0 + item.value),
       p.2 + item.value))
    p

/-- Accumulate the activities of one category detail into its activity
count map. -/
def mergeActs (m : List (String × ℚ)) (acts : List Activity) : List (String × ℚ) :=
  acts.foldl
    (fun m a => mapSet m a.activity ((mapFind m a.activity).getD 0 + a.count))
    m

/-- Accumulate the detailed report of one input into the per-category
activity maps. -/
def mergeDetail (ca : List (String × List (String × ℚ))) (ds : List DetailedReportData) :
    List (String × List (String × ℚ)) :=
  ds.foldl
    (fun ca d => mapSet ca d.category (mergeActs ((mapFind ca d.category).getD []) d.activities))
    ca

/-- Accumulator of the merge loop. -/
structure MergeAcc where
  categoryTotals : List (String × ℚ)
  categoryActivities : List (String × List (String × ℚ))
  grandTotal : ℚ

/-- One iteration of the merge loop over the input reports. -/
def mergeStep (acc : MergeAcc) (rd : ReportData) : MergeAcc :=
  let p := mergePie (acc.categoryTotals, acc.grandTotal) rd.pieChart
  { categoryTotals := p.1
    categoryActivities := mergeDetail acc.categoryActivities rd.detailedReport
    grandTotal := p.2 }

/-- Descending order on activity counts used by the per-category sort. -/
def actGE (a b : Activity) : Prop := b.count ≤ a.count

instance : DecidableRel actGE := fun a b => inferInstanceAs (Decidable (b.count ≤ a.count))

instance : IsTotal Activity actGE := ⟨fun a b => le_total b.count a.count⟩

instance : IsTrans Activity actGE := ⟨fun _ _ _ h h' => le_trans h' h⟩

/-- report-db.ts mergeReportData: accumulate category totals, the grand
total and per-category activity counts over all inputs, then rebuild the
three views; activities are sorted by descending count with a stable sort
(insertionSort over a non-strict order models the stable JS sort). -/
def mergeReportData (reportDataArray : List ReportData) : ReportData :=
  let acc := reportDataArray.foldl mergeStep ⟨[], [], 0⟩
  { pieChart := acc.categoryTotals.map (fun p => ⟨p.1, p.2⟩)
    quickReport := acc.categoryTotals.map (fun p => ⟨p.1, p.2 / acc.grandTotal * 100⟩)
    detailedReport :=
      acc.categoryActivities.map
        (fun p => ⟨p.1, (p.2.map (fun q => (⟨q.1, q.2⟩ : Activity))).insertionSort actGE⟩) }

/-! ### Report repository operations (report-db.ts) -/

namespace ReportDatabase

/-- getDailyReportsByMonth: cursor scan of the daily store over the
year-month head-anchored key range. -/
def getDailyReportsByMonth (db : ReportDB) (yearMonth : String) : List DailyReport :=
  IndexedDB.idbSearch DailyReport.id db.daily
    (some (IndexedDB.headRange (yearMonth ++ "-")))

/-- getDailyReportsByYear: cursor scan of the daily store over the year
head-anchored key range. -/
def getDailyReportsByYear (db : ReportDB) (year : String) : List DailyReport :=
  IndexedDB.idbSearch DailyReport.id db.daily
    (some (IndexedDB.headRange (year ++ "-")))

/-- generateYearlyReport: read the year's daily reports, reject with a
domain error when there are none, otherwise merge their data into a fresh
yearly report; the method only reads, so it threads the database state
unchanged and persists nothing. -/
def generateYearlyReport (db : ReportDB) (year : String) :
    ReportDB × Except String YearlyReport :=
  let dailyReports := getDailyReportsByYear db year
  if dailyReports.length = 0 then
    (db, .error ("No daily reports found for year " ++ year))
  else
    (db, .ok
      { id := year
        year := year
        title := "Annual Report " ++ year
        data := mergeReportData (dailyReports.map (fun report => report.data)) })

/-- Model of a JS Date at UTC midnight, as produced by new Date("YYYY-MM-DD"). -/
structure JsDate where
  year : Nat
  month : Nat
  day : Nat

/-- Zero-padded two-digit rendering. -/
def pad2 (n : Nat) : String := if n < 10 then "0" ++ toString n else toString n

/-- Zero-padded four-digit rendering (years of interest are 1000-9999). -/
def pad4 (n : Nat) : String :=
  if n < 10 then "000" ++ toString n
  else if n < 100 then "00" ++ toString n
  else if n < 1000 then "0" ++ toString n
  else toString n

/-- toISOString().split("T")[0]: the YYYY-MM-DD rendering of a date. -/
def toISODate (d : JsDate) : String := pad4 d.year ++ "-" ++ pad2 d.month ++ "-" ++ pad2 d.day

/-- cleanupOldReports: search the daily store for every report whose id
precedes the rendered date and delete each one; the yearly store is not
touched. -/
def cleanupOldReports (db : ReportDB) (olderThan : JsDate) : ReportDB :=
  let olderThanStr := toISODate olderThan
  let oldReports :=
    IndexedDB.idbSearch DailyReport.id db.daily
      (some (IndexedDB.lessThanRange olderThanStr))
  { db with
    daily := oldReports.foldl (fun s report => IndexedDB.idbDelete DailyReport.id s report.id) db.daily }

/-- Import payload: either store's list may be absent. -/
structure ImportData where
  dailyReports : Option (List DailyReport)
  yearlyReports : Option (List YearlyReport)

/-- Second half of importReports, reached only when the daily half did not
reject: replace the yearly store when a non-empty list is provided (clear,
then bulk add into the cleared store). -/
def importYearly (db : ReportDB) (yIn : Option (List YearlyReport)) : ReportDB × Option String :=
  match yIn with
  | some l =>
    if 0 < l.length then
      let p := IndexedDB.idbAddMultiple YearlyReport.id ([] : List YearlyReport) l
      (⟨db.daily, p.1⟩, p.2)
    else (db, none)
  | none => (db, none)

/-- importReports: for each provided, non-empty store clear it and bulk-add
the provided records into the cleared store; a failing bulk add rejects at
once (so the yearly store is not reached when the daily bulk add fails,
and the daily store stays cleared, the clear being its own transaction),
and a store whose array is absent or empty is left alone. -/
def importReports (db : ReportDB) (data : ImportData) : ReportDB × Option String :=
  match data.dailyReports with
  | some l =>
    if 0 < l.length then
      let p := IndexedDB.idbAddMultiple DailyReport.id ([] : List DailyReport) l
      match p.2 with
      | none => importYearly ⟨p.1, db.yearly⟩ data.yearlyReports
      | some e => (⟨p.1, db.yearly⟩, some e)
    else importYearly db data.yearlyReports
  | none => importYearly db data.yearlyReports

end ReportDatabase

/-! ### Specification-side definitions and concrete instances -/

/-- Modelled from the claim wording of the fuzzy mode (for comparison with
the source function getFuzzyMatchScore): the best similarity over every
whitespace-token word of the field value, kept when at least the
threshold, with no restriction on the word length. -/
def specFuzzyScoreClaim (o : SearchOptions) (text term : String) : ℚ :=
  if term.length ≤ 3 then getExactMatchScore o text term
  else
    ((((strSplitOn (if o.caseSensitive then text else strToLower text) isWs)).map
        (fun w => 1 - (levenshteinDistance w term : ℚ) / ((max w.length term.length : ℕ) : ℚ))).filter
      (fun s => decide (resolveThreshold o.fuzzyMatchThreshold ≤ s))).foldl max 0

/-- The amended wording: as specFuzzyScoreClaim, but only whitespace-token
words of length at least 3 compete (shorter words are skipped). -/
def specFuzzyScoreAmended (o : SearchOptions) (text term : String) : ℚ :=
  if term.length ≤ 3 then getExactMatchScore o text term
  else
    ((((strSplitOn (if o.caseSensitive then text else strToLower text) isWs).filter
          (fun w => decide (3 ≤ w.length))).map
        (fun w => 1 - (levenshteinDistance w term : ℚ) / ((max w.length term.length : ℕ) : ℚ))).filter
      (fun s => decide (resolveThreshold o.fuzzyMatchThreshold ≤ s))).foldl max 0

/-- Fuzzy search options with an explicit low threshold 2/5. -/
def optsFuzzyLow : SearchOptions := ⟨none, false, false, true, some (2 / 5)⟩

/-- Fuzzy search options with the default threshold 7/10 passed explicitly. -/
def optsFuzzyDefault : SearchOptions := ⟨none, false, false, true, some (7 / 10)⟩

/-- Exact-match options with limit 1, for concrete search runs. -/
def optsExactLim1 : SearchOptions := ⟨some 1, false, false, false, none⟩

/-- A concrete one-record store for concrete search runs. -/
def wItems : List JsVal := [JsVal.obj [("title", JsVal.str "hello world")]]

/-- ASCII digit test. -/
def isDigitB (c : Char) : Bool := 48 ≤ c.toNat && c.toNat ≤ 57

/-- The i-th character of a list, blank when out of bounds. -/
def charAt (l : List Char) (i : Nat) : Char := l.getD i ' '

/-- A well-formed YYYY-MM-DD report id. -/
def isDateId (s : String) : Bool :=
  s.data.length == 10 &&
  isDigitB (charAt s.data 0) && isDigitB (charAt s.data 1) &&
  isDigitB (charAt s.data 2) && isDigitB (charAt s.data 3) &&
  charAt s.data 4 == '-' &&
  isDigitB (charAt s.data 5) && isDigitB (charAt s.data 6) &&
  charAt s.data 7 == '-' &&
  isDigitB (charAt s.data 8) && isDigitB (charAt s.data 9)

/-- An empty report payload for concrete stores. -/
def rdEmpty : ReportData := ⟨[], [], []⟩

/-- A daily report with the given id and an empty payload. -/
def dRep (id : String) : DailyReport := ⟨id, id, "Daily Report", rdEmpty⟩

/-- A yearly report with the given id and an empty payload. -/
def yRep (id : String) : YearlyReport := ⟨id, id, "Annual Report " ++ id, rdEmpty⟩

/-- A concrete daily store with three reports over two months. -/
def exDb : ReportDB :=
  ⟨[dRep "2024-01-01", dRep "2024-01-15", dRep "2024-02-01"], []⟩

/-- A concrete payload with one category and two activity entries. -/
def rdWork : ReportData :=
  ⟨[⟨"Work", 3⟩], [⟨"Work", 100⟩], [⟨"Work", [⟨"coding", 2⟩, ⟨"review", 1⟩]⟩]⟩

/-- A concrete daily store with payload data, for the merge claims. -/
def exDb2 : ReportDB :=
  ⟨[⟨"2024-03-01", "2024-03-01", "Daily Report", rdWork⟩,
    ⟨"2024-03-02", "2024-03-02", "Daily Report", rdWork⟩], []⟩

/-- A concrete database around the cleanup boundary, with one yearly
report. -/
def exDbCleanup : ReportDB := ⟨[dRep "2024-01-31", dRep "2024-02-01"], [yRep "2023"]⟩

/-- A concrete import payload: one daily report, yearly array empty. -/
def importEx : ReportDatabase.ImportData := ⟨some [dRep "2025-01-01"], some []⟩

/-! ### Measures used to state the aggregation claim -/

/-- Total of the pie slice values of one report. -/
def pieSum (rd : ReportData) : ℚ := (rd.pieChart.map PieChartData.value).sum

/-- Grand total of all pie slice values over a list of reports. -/
def grandTotalOf (l : List ReportData) : ℚ := (l.map pieSum).sum

/-- The (category, activity) pair occurs in some input's detailed report. -/
def appearsIn (l : List ReportData) (c a : String) : Prop :=
  ∃ rd ∈ l, ∃ d ∈ rd.detailedReport,
    d.category = c ∧ ∃ act ∈ d.activities, act.activity = a

instance (l : List ReportData) (c a : String) : Decidable (appearsIn l c a) :=
  inferInstanceAs (Decidable (∃ rd ∈ l, ∃ d ∈ rd.detailedReport,
    d.category = c ∧ ∃ act ∈ d.activities, act.activity = a))

/-- Summed count of one activity name within an activity list. -/
def sumActs (acts : List Activity) (a : String) : ℚ :=
  ((acts.filter (fun x => x.activity == a)).map Activity.count).sum

/-- Summed count of (c, a) within one detailed report. -/
def sumDetails (ds : List DetailedReportData) (c a : String) : ℚ :=
  ((ds.filter (fun d => d.category == c)).map (fun d => sumActs d.activities a)).sum

/-- The exact total of (c, a) over all inputs. -/
def totalCount (l : List ReportData) (c a : String) : ℚ :=
  (l.map (fun rd => sumDetails rd.detailedReport c a)).sum

/-- Count looked up in an activity map, zero when absent. -/
def lookup0 (m : List (String × ℚ)) (a : String) : ℚ := (mapFind m a).getD 0

/-- Activity map looked up in the category map, empty when absent. -/
def lookupA (ca : List (String × List (String × ℚ))) (c : String) : List (String × ℚ) :=
  (mapFind ca c).getD []

/-- Sum of the values of an association list. -/
def vals (m : List (String × ℚ)) : ℚ := (m.map (fun p => p.2)).sum

/-! ### Lemmas about the fuzzy fold -/

/-- The best-score fold of getFuzzyMatchScore computes the maximum of the
thresholded similarities of the words of length at least 3. -/
theorem foldBest_eq (sim : String → ℚ) (th : ℚ) (l : List String) : ∀ b : ℚ,
    l.foldl (fun bestScore word =>
      if word.length < 3 then bestScore
      else if th ≤ sim word ∧ bestScore < sim word then sim word else bestScore) b
    = (((l.filter (fun w => decide (3 ≤ w.length))).map sim).filter
        (fun s => decide (th ≤ s))).foldl max b := by
  induction l with
  | nil => intro b; rfl
  | cons w l ih =>
    intro b
    rw [List.foldl_cons]
    by_cases hw : w.length < 3
    · rw [if_pos hw, ih, List.filter_cons_of_neg (by simp; omega)]
    · rw [if_neg hw, List.filter_cons_of_pos (by simp; omega), List.map_cons]
      by_cases hth : th ≤ sim w
      · rw [List.filter_cons_of_pos (by simpa using hth), List.foldl_cons, ih]
        congr 1
        rcases le_or_lt (sim w) b with hb | hb
        · rw [if_neg (fun h => absurd hb (not_le.mpr h.2)), max_eq_left hb]
        · rw [if_pos ⟨hth, hb⟩, max_eq_right hb.le]
      · rw [List.filter_cons_of_neg (by simpa using hth), ih]
        congr 1
        rw [if_neg (fun h => hth h.1)]

/-! ### Claim C3 -/

/-- C3 counterexample: the source skips whitespace-token words shorter
than 3 characters, which the claimed scoring rule does not; with an
explicit threshold of 2/5, field value "ab" and term "abcd" the claimed
rule yields similarity 1/2 at or above the threshold while the source
scores 0.  Moreover the claimed similarity for field "running" and term
"runing" is 1 - 1/6, while the source formula gives
1 - 1/max(7,6) = 6/7. -/
theorem fuzzy_claim_counterexample :
    getFuzzyMatchScore optsFuzzyLow "ab" "abcd" = 0 ∧
    specFuzzyScoreClaim optsFuzzyLow "ab" "abcd" = 1 / 2 ∧
    resolveThreshold optsFuzzyLow.fuzzyMatchThreshold ≤ 1 / 2 ∧
    getFuzzyMatchScore optsFuzzyLow "ab" "abcd" ≠ specFuzzyScoreClaim optsFuzzyLow "ab" "abcd" ∧
    (1 : ℚ) - (levenshteinDistance "running" "runing" : ℚ)
        / ((max "running".length "runing".length : ℕ) : ℚ) = 6 / 7 ∧
    (6 : ℚ) / 7 ≠ 1 - 1 / 6 := by
  have hres : resolveThreshold optsFuzzyLow.fuzzyMatchThreshold = 2 / 5 := by
    show resolveThreshold (some (2 / 5)) = 2 / 5
    rw [resolveThreshold]
    norm_num
  have hcode : getFuzzyMatchScore optsFuzzyLow "ab" "abcd" = 0 := by rfl
  have hlev : levenshteinDistance "ab" "abcd" = 2 := by decide
  have hspec : specFuzzyScoreClaim optsFuzzyLow "ab" "abcd" = 1 / 2 := by
    rw [specFuzzyScoreClaim, if_neg (by decide)]
    have hw : strSplitOn (if optsFuzzyLow.caseSensitive then "ab" else strToLower "ab") isWs
        = ["ab"] := by decide
    rw [hw, List.map_cons, List.map_nil]
    rw [List.filter_cons_of_pos]
    · rw [List.filter_nil, List.foldl_cons, List.foldl_nil, hlev]
      show max 0 (1 - (2 : ℚ) / ((4 : ℕ) : ℚ)) = 1 / 2
      norm_num
    · rw [hres, hlev, decide_eq_true_eq]
      show (2 : ℚ) / 5 ≤ 1 - 2 / ((4 : ℕ) : ℚ)
      norm_num
  have hlev2 : levenshteinDistance "running" "runing" = 1 := by decide
  refine ⟨hcode, hspec, by rw [hres]; norm_num, by rw [hcode, hspec]; norm_num, ?_, by norm_num⟩
  rw [hlev2]
  show (1 : ℚ) - 1 / ((7 : ℕ) : ℚ) = 6 / 7
  norm_num

/-- C3 (amended): with fuzzy matching enabled, a term of length at most 3
is scored by exact matching regardless of mode; a longer term is scored as
the best similarity 1 - editDistance/max(lengths) over the whitespace
tokens of the field OF LENGTH AT LEAST 3 (shorter tokens are skipped),
kept only when at least the threshold.  A field "running" with term
"runing" and threshold 7/10 matches with similarity 1 - 1/7 = 6/7, and a
term of length at most 3 such as "run" exact-matches as a substring
instead. -/
theorem getFuzzyMatchScore_amended :
    (∀ (o : SearchOptions) (text term : String), term.length ≤ 3 →
      getFuzzyMatchScore o text term = getExactMatchScore o text term) ∧
    (∀ (o : SearchOptions) (text term : String), 3 < term.length →
      getFuzzyMatchScore o text term = specFuzzyScoreAmended o text term) ∧
    getFuzzyMatchScore optsFuzzyDefault "running" "runing" = 6 / 7 ∧
    (7 : ℚ) / 10 ≤ 6 / 7 ∧
    getFuzzyMatchScore optsFuzzyDefault "running" "run"
      = getExactMatchScore optsFuzzyDefault "running" "run" ∧
    getExactMatchScore optsFuzzyDefault "running" "run" = 1 := by
  have hshort : ∀ (o : SearchOptions) (text term : String), term.length ≤ 3 →
      getFuzzyMatchScore o text term = getExactMatchScore o text term := by
    intro o text term h
    rw [getFuzzyMatchScore, if_pos h]
  have hlong : ∀ (o : SearchOptions) (text term : String), 3 < term.length →
      getFuzzyMatchScore o text term = specFuzzyScoreAmended o text term := by
    intro o text term h
    have hne : ¬ (term.length ≤ 3) := by omega
    rw [getFuzzyMatchScore, if_neg hne, specFuzzyScoreAmended, if_neg hne]
    exact foldBest_eq
      (fun w => 1 - (levenshteinDistance w term : ℚ) / ((max w.length term.length : ℕ) : ℚ))
      (resolveThreshold o.fuzzyMatchThreshold)
      (strSplitOn (if o.caseSensitive then text else strToLower text) isWs) 0
  have hconc : getFuzzyMatchScore optsFuzzyDefault "running" "runing" = 6 / 7 := by
    rw [getFuzzyMatchScore, if_neg (by decide)]
    show (strSplitOn (if optsFuzzyDefault.caseSensitive then "running"
        else strToLower "running") isWs).foldl _ 0 = 6 / 7
    have hw : strSplitOn (if optsFuzzyDefault.caseSensitive then "running"
        else strToLower "running") isWs = ["running"] := by decide
    rw [hw]
    rw [foldBest_eq
      (fun word => 1 - (levenshteinDistance word "runing" : ℚ)
        / ((max word.length "runing".length : ℕ) : ℚ))
      (resolveThreshold optsFuzzyDefault.fuzzyMatchThreshold)]
    have hres : resolveThreshold optsFuzzyDefault.fuzzyMatchThreshold = 7 / 10 := by
      show resolveThreshold (some (7 / 10)) = 7 / 10
      rw [resolveThreshold]
      norm_num
    have hlev : levenshteinDistance "running" "runing" = 1 := by decide
    rw [List.filter_cons_of_pos (by decide), List.map_cons, List.filter_nil, List.map_nil]
    rw [List.filter_cons_of_pos]
    · rw [List.filter_nil, List.foldl_cons, List.foldl_nil, hlev]
      show max 0 (1 - (1 : ℚ) / ((7 : ℕ) : ℚ)) = 6 / 7
      norm_num
    · rw [hres, hlev, decide_eq_true_eq]
      show (7 : ℚ) / 10 ≤ 1 - 1 / ((7 : ℕ) : ℚ)
      norm_num
  exact ⟨hshort, hlong, hconc, by norm_num, hshort _ _ _ (by decide), by rfl⟩

/-- Witness for the amended C3 theorem at concrete inputs. -/
theorem getFuzzyMatchScore_amended_witness :
    ("run".length ≤ 3 ∧
      getFuzzyMatchScore optsFuzzyDefault "hello" "run"
        = getExactMatchScore optsFuzzyDefault "hello" "run") ∧
    (3 < "word".length ∧
      getFuzzyMatchScore optsFuzzyDefault "hello" "word"
        = specFuzzyScoreAmended optsFuzzyDefault "hello" "word") :=
  ⟨⟨by decide, getFuzzyMatchScore_amended.1 _ _ _ (by decide)⟩,
   ⟨by decide, getFuzzyMatchScore_amended.2.1 _ _ _ (by decide)⟩⟩

/-! ### Claim C4 -/

/-- Members of the truncated list are members of the full list. -/
theorem mem_applyLimit (lim : Option Nat) (l : List (JsVal × ℚ)) :
    ∀ p ∈ applyLimit lim l, p ∈ l := by
  intro p hp
  rcases lim with _ | n
  · exact hp
  · by_cases hn : 0 < n
    · rw [applyLimit, if_pos hn] at hp
      exact List.mem_of_mem_take hp
    · rw [applyLimit, if_neg hn] at hp
      exact hp

/-- Truncation preserves pairwise order. -/
theorem pairwise_applyLimit (lim : Option Nat) (l : List (JsVal × ℚ))
    {R : JsVal × ℚ → JsVal × ℚ → Prop} (h : l.Pairwise R) :
    (applyLimit lim l).Pairwise R := by
  rcases lim with _ | n
  · exact h
  · by_cases hn : 0 < n
    · rw [applyLimit, if_pos hn]
      exact List.Pairwise.sublist (List.take_sublist n l) h
    · rw [applyLimit, if_neg hn]
      exact h

/-- A positive limit bounds the truncated length. -/
theorem length_applyLimit (n : Nat) (l : List (JsVal × ℚ)) (hn : 0 < n) :
    (applyLimit (some n) l).length ≤ n := by
  rw [applyLimit, if_pos hn]
  exact List.length_take_le n l

/-- C4: a non-whitespace query yields only entries of positive score,
ordered by descending score and bounded in number by any positive limit;
an empty or whitespace-only query returns every record paired with score
zero in store enumeration order. -/
theorem fullTextSearch_spec (items : List JsVal) (query : String) (fields : List String)
    (o : SearchOptions) :
    (strTrim query ≠ "" →
      (∀ p ∈ fullTextSearch items query fields o, 0 < p.2) ∧
      (fullTextSearch items query fields o).Pairwise (fun a b => b.2 ≤ a.2) ∧
      (∀ n, o.limit = some n → 0 < n → (fullTextSearch items query fields o).length ≤ n)) ∧
    (strTrim query = "" →
      fullTextSearch items query fields o = items.map (fun item => (item, 0))) := by
  constructor
  · intro hq
    rw [fullTextSearch, if_neg hq]
    refine ⟨?_, ?_, ?_⟩
    · intro p hp
      have hp' := mem_applyLimit _ _ p hp
      have h1 := (List.perm_insertionSort scoreGE _).mem_iff.mp hp'
      have h2 := (List.mem_filter.mp h1).2
      simpa using h2
    · exact pairwise_applyLimit _ _
        ((List.sorted_insertionSort scoreGE _).imp (fun h => h))
    · intro n hn hnpos
      rw [hn]
      exact length_applyLimit n _ hnpos
  · intro hq
    rw [fullTextSearch, if_pos hq]

/-- Witness for C4 at a concrete store, query and limit. -/
theorem fullTextSearch_spec_witness :
    strTrim "hello" ≠ "" ∧
    (∀ p ∈ fullTextSearch wItems "hello" ["title"] optsExactLim1, 0 < p.2) ∧
    (fullTextSearch wItems "hello" ["title"] optsExactLim1).Pairwise (fun a b => b.2 ≤ a.2) ∧
    (fullTextSearch wItems "hello" ["title"] optsExactLim1).length ≤ 1 ∧
    strTrim " " = "" ∧
    fullTextSearch wItems " " ["title"] optsExactLim1 = wItems.map (fun item => (item, 0)) := by
  refine ⟨by decide, ?_, ?_, ?_, by decide, ?_⟩
  · exact ((fullTextSearch_spec wItems "hello" ["title"] optsExactLim1).1 (by decide)).1
  · exact ((fullTextSearch_spec wItems "hello" ["title"] optsExactLim1).1 (by decide)).2.1
  · exact ((fullTextSearch_spec wItems "hello" ["title"] optsExactLim1).1 (by decide)).2.2 1 rfl
      (by decide)
  · exact (fullTextSearch_spec wItems " " ["title"] optsExactLim1).2 (by decide)

/-! ### Claim C10 -/

/-- C10: with fuzzy matching enabled, an explicit threshold of 0 is falsy
and falls back to the default 7/10, so the search result is identical to
the one with threshold 7/10: the cutoff cannot be disabled by passing 0. -/
theorem fullTextSearch_threshold_zero_default (items : List JsVal) (query : String)
    (fields : List String) (lim : Option Nat) (cs mw : Bool) :
    fullTextSearch items query fields ⟨lim, cs, mw, true, some 0⟩ =
    fullTextSearch items query fields ⟨lim, cs, mw, true, some (7 / 10)⟩ := by
  have hres : resolveThreshold (some (0 : ℚ)) = resolveThreshold (some ((7 : ℚ) / 10)) := by
    rw [resolveThreshold, resolveThreshold]
    norm_num
  have hex : getExactMatchScore ⟨lim, cs, mw, true, some 0⟩
      = getExactMatchScore ⟨lim, cs, mw, true, some ((7 : ℚ) / 10)⟩ := by
    funext text term
    rw [getExactMatchScore, getExactMatchScore]
  have hfz : getFuzzyMatchScore ⟨lim, cs, mw, true, some 0⟩
      = getFuzzyMatchScore ⟨lim, cs, mw, true, some ((7 : ℚ) / 10)⟩ := by
    funext text term
    rw [getFuzzyMatchScore, getFuzzyMatchScore, hex]
    dsimp only
    simp only [hres]
  have hsc : scoreItem ⟨lim, cs, mw, true, some 0⟩
      = scoreItem ⟨lim, cs, mw, true, some ((7 : ℚ) / 10)⟩ := by
    funext fields terms item
    rw [scoreItem, scoreItem]
    dsimp only
    simp only [hfz, hex]
  rw [fullTextSearch, fullTextSearch]
  dsimp only
  simp only [hsc]

/-! ### Lemmas about the key order and head-anchored ranges -/

/-- Characters with equal code points are equal. -/
theorem charEq_of_toNat_eq {a b : Char} (h : a.toNat = b.toNat) : a = b := by
  apply Char.eq_of_val_eq
  unfold Char.toNat at h
  exact UInt32.toNat.inj h

/-- A string never precedes its own extensions. -/
theorem keyLtL_append_self (p s : List Char) : keyLtL (p ++ s) p = false := by
  induction p with
  | nil => cases s <;> rfl
  | cons c p ih => simp [keyLtL, ih]

/-- The key order ignores a common head. -/
theorem keyLtL_append_left (p a b : List Char) : keyLtL (p ++ a) (p ++ b) = keyLtL a b := by
  induction p with
  | nil => rfl
  | cons c p ih => simp [keyLtL, ih]

/-- Any basic-plane tail precedes the maximal sentinel character. -/
theorem keyLtL_lt_maxChar (s : List Char) (h : ∀ c ∈ s, c.toNat < 0xFFFF) :
    keyLtL s [maxChar] = true := by
  cases s with
  | nil => rfl
  | cons c cs =>
    have hc : c.toNat < 0xFFFF := h c (List.mem_cons_self c cs)
    have hm : maxChar.toNat = 0xFFFF := by decide
    simp [keyLtL, hm, hc]

/-- startsWithL holds of explicit extensions. -/
theorem exists_of_startsWithL (p : List Char) : ∀ k : List Char,
    startsWithL k p = true → ∃ s, k = p ++ s := by
  induction p with
  | nil => exact fun k _ => ⟨k, rfl⟩
  | cons c p ih =>
    intro k h
    cases k with
    | nil => simp [startsWithL] at h
    | cons d k' =>
      rw [startsWithL, Bool.and_eq_true, beq_iff_eq] at h
      obtain ⟨s, hs⟩ := ih k' h.2
      refine ⟨s, ?_⟩
      rw [hs, h.1]
      rfl

/-- A key inside the head-anchored range starts with the anchor. -/
theorem startsWithL_of_range (p : List Char) : ∀ k : List Char,
    keyLtL k p = false → keyLtL k (p ++ [maxChar]) = true → startsWithL k p = true := by
  induction p with
  | nil =>
    intro k _ _
    cases k <;> rfl
  | cons c p ih =>
    intro k h1 h2
    cases k with
    | nil => simp [keyLtL] at h1
    | cons d k' =>
      simp only [List.cons_append, keyLtL] at h1 h2
      by_cases hdc : d.toNat < c.toNat
      · rw [if_pos hdc] at h1
        exact absurd h1 (by simp)
      · rw [if_neg hdc] at h1 h2
        by_cases hcd : c.toNat < d.toNat
        · rw [if_pos hcd] at h2
          exact absurd h2 (by simp)
        · rw [if_neg hcd] at h1 h2
          have hdceq : d = c := charEq_of_toNat_eq (by omega)
          rw [startsWithL, hdceq]
          simp [ih k' h1 h2]

/-- Membership in the head-anchored range coincides with the string-head
test on basic-plane keys. -/
theorem inRange_head_eq (p k : String) (hk : ∀ c ∈ k.data, c.toNat < 0xFFFF) :
    inKeyRange (IndexedDB.headRange p) k = strStartsWith k p := by
  have hshape : inKeyRange (IndexedDB.headRange p) k
      = (!keyLt k p && keyLt k (p ++ String.mk [maxChar])) := rfl
  have hdata : (p ++ String.mk [maxChar]).data = p.data ++ [maxChar] :=
    String.data_append p (String.mk [maxChar])
  rw [hshape]
  cases hs : strStartsWith k p with
  | true =>
    rw [strStartsWith] at hs
    obtain ⟨s, hsk⟩ := exists_of_startsWithL p.data k.data hs
    have h1 : keyLt k p = false := by
      rw [keyLt, hsk]; exact keyLtL_append_self _ _
    have h2 : keyLt k (p ++ String.mk [maxChar]) = true := by
      rw [keyLt, hdata, hsk, keyLtL_append_left]
      refine keyLtL_lt_maxChar s (fun c hc => hk c ?_)
      rw [hsk]
      exact List.mem_append_right _ hc
    rw [h1, h2]
    rfl
  | false =>
    cases h1 : keyLt k p with
    | true => rfl
    | false =>
      cases h2 : keyLt k (p ++ String.mk [maxChar]) with
      | false => rfl
      | true =>
        rw [keyLt, hdata] at h2
        rw [keyLt] at h1
        have := startsWithL_of_range p.data k.data h1 h2
        rw [strStartsWith] at hs
        rw [hs] at this
        exact absurd this (by simp)

/-- Well-formed date ids live in the basic plane. -/
theorem chars_lt_of_isDateId (s : String) (h : isDateId s = true) :
    ∀ c ∈ s.data, c.toNat < 0xFFFF := by
  intro c hc
  rw [isDateId] at h
  simp only [Bool.and_eq_true, beq_iff_eq, and_assoc] at h
  obtain ⟨hlen, h0, h1, h2, h3, h4, h5, h6, h7, h8, h9⟩ := h
  rw [List.mem_iff_getElem] at hc
  obtain ⟨i, hi, hci⟩ := hc
  rw [hlen] at hi
  have hget : ∀ j (hj : j < s.data.length), charAt s.data j = s.data[j] :=
    fun j hj => List.getD_eq_getElem s.data ' ' (by omega)
  have hdig : ∀ x : Char, isDigitB x = true → x.toNat < 0xFFFF := by
    intro x hx
    rw [isDigitB, Bool.and_eq_true, decide_eq_true_eq, decide_eq_true_eq] at hx
    omega
  subst hci
  interval_cases i
  · rw [← hget 0 (by omega)]; exact hdig _ h0
  · rw [← hget 1 (by omega)]; exact hdig _ h1
  · rw [← hget 2 (by omega)]; exact hdig _ h2
  · rw [← hget 3 (by omega)]; exact hdig _ h3
  · rw [← hget 4 (by omega), h4]; decide
  · rw [← hget 5 (by omega)]; exact hdig _ h5
  · rw [← hget 6 (by omega)]; exact hdig _ h6
  · rw [← hget 7 (by omega), h7]; decide
  · rw [← hget 8 (by omega)]; exact hdig _ h8
  · rw [← hget 9 (by omega)]; exact hdig _ h9

/-! ### Claim C5 -/

/-- C5: over well-formed YYYY-MM-DD ids, the month query returns exactly
the daily reports whose id extends yearMonth + "-", in ascending key
order, and the range it scans is the anchor-to-sentinel bounded range. -/
theorem getDailyReportsByMonth_spec (db : ReportDB) (yearMonth : String)
    (hwf : ∀ r ∈ db.daily, isDateId r.id = true)
    (hsorted : db.daily.Pairwise (fun a b => keyLt a.id b.id = true)) :
    ReportDatabase.getDailyReportsByMonth db yearMonth
      = db.daily.filter (fun r => strStartsWith r.id (yearMonth ++ "-")) ∧
    (ReportDatabase.getDailyReportsByMonth db yearMonth).Pairwise
      (fun a b => keyLt a.id b.id = true) ∧
    IndexedDB.headRange (yearMonth ++ "-")
      = ⟨some (yearMonth ++ "-"), some (yearMonth ++ "-" ++ String.mk [maxChar]),
          false, true⟩ := by
  have hfe : ReportDatabase.getDailyReportsByMonth db yearMonth
      = db.daily.filter (fun r => strStartsWith r.id (yearMonth ++ "-")) := by
    rw [ReportDatabase.getDailyReportsByMonth]
    simp only [IndexedDB.idbSearch]
    exact List.filter_congr
      (fun r hr => inRange_head_eq (yearMonth ++ "-") r.id
        (chars_lt_of_isDateId r.id (hwf r hr)))
  refine ⟨hfe, ?_, rfl⟩
  rw [hfe]
  exact hsorted.filter _

/-- Witness for C5 at the three-report store of the claim. -/
theorem getDailyReportsByMonth_spec_witness :
    (∀ r ∈ exDb.daily, isDateId r.id = true) ∧
    exDb.daily.Pairwise (fun a b => keyLt a.id b.id = true) ∧
    ReportDatabase.getDailyReportsByMonth exDb "2024-01"
      = [dRep "2024-01-01", dRep "2024-01-15"] := by
  refine ⟨by decide, by decide, ?_⟩
  rw [(getDailyReportsByMonth_spec exDb "2024-01" (by decide) (by decide)).1]
  decide

/-! ### Claim C2 -/

/-- C2: generateYearlyReport threads the database unchanged (persisting
nothing), rejects with the domain error exactly when no daily report id
extends year + "-", and otherwise resolves with the yearly report built
from year and the merge of the matching daily reports' data. -/
theorem generateYearlyReport_spec (db : ReportDB) (year : String)
    (hwf : ∀ r ∈ db.daily, ∀ c ∈ r.id.data, c.toNat < 0xFFFF) :
    (ReportDatabase.generateYearlyReport db year).1 = db ∧
    ((ReportDatabase.generateYearlyReport db year).2
        = Except.error ("No daily reports found for year " ++ year) ↔
      ∀ r ∈ db.daily, ¬ strStartsWith r.id (year ++ "-") = true) ∧
    (∀ yr, (ReportDatabase.generateYearlyReport db year).2 = Except.ok yr →
      yr.id = year ∧ yr.year = year ∧ yr.title = "Annual Report " ++ year ∧
      yr.data = mergeReportData
        ((db.daily.filter (fun r => strStartsWith r.id (year ++ "-"))).map
          (fun report => report.data))) := by
  have hfe : ReportDatabase.getDailyReportsByYear db year
      = db.daily.filter (fun r => strStartsWith r.id (year ++ "-")) := by
    rw [ReportDatabase.getDailyReportsByYear]
    simp only [IndexedDB.idbSearch]
    exact List.filter_congr
      (fun r hr => inRange_head_eq (year ++ "-") r.id (hwf r hr))
  rw [ReportDatabase.generateYearlyReport, hfe]
  by_cases hnil : db.daily.filter (fun r => strStartsWith r.id (year ++ "-")) = []
  · rw [hnil]
    rw [if_pos (by rfl)]
    refine ⟨rfl, ?_, ?_⟩
    · constructor
      · intro _
        exact List.filter_eq_nil_iff.mp hnil
      · intro _
        rfl
    · intro yr h
      exact absurd h (by simp)
  · rw [if_neg (by simpa [List.length_eq_zero] using hnil)]
    refine ⟨rfl, ?_, ?_⟩
    · constructor
      · intro h
        exact absurd h (by simp)
      · intro hall
        exact absurd (List.filter_eq_nil_iff.mpr hall) hnil
    · intro yr h
      simp only [Except.ok.injEq] at h
      rw [← h]
      exact ⟨rfl, rfl, rfl, rfl⟩

/-- Witness for C2: the store has 2024 reports, so 2024 resolves with the
annual report and 2023 rejects with the domain error. -/
theorem generateYearlyReport_spec_witness :
    (∀ r ∈ exDb.daily, ∀ c ∈ r.id.data, c.toNat < 0xFFFF) ∧
    (ReportDatabase.generateYearlyReport exDb "2024").1 = exDb ∧
    (ReportDatabase.generateYearlyReport exDb "2023").2
      = Except.error ("No daily reports found for year " ++ "2023") ∧
    (∀ yr, (ReportDatabase.generateYearlyReport exDb "2024").2 = Except.ok yr →
      yr.id = "2024" ∧ yr.year = "2024" ∧ yr.title = "Annual Report " ++ "2024") := by
  refine ⟨by decide, (generateYearlyReport_spec exDb "2024" (by decide)).1, ?_, ?_⟩
  · exact (generateYearlyReport_spec exDb "2023" (by decide)).2.1.mpr (by decide)
  · intro yr h
    have hy := (generateYearlyReport_spec exDb "2024" (by decide)).2.2 yr h
    exact ⟨hy.1, hy.2.1, hy.2.2.1⟩

/-! ### Claim C6 -/

/-- Sequential deletions by the keys of a victim list amount to filtering
those keys out. -/
theorem foldl_delete_eq_filter {α : Type} (key : α → String) (ds : List α) :
    ∀ s0 : List α,
      ds.foldl (fun s r => IndexedDB.idbDelete key s (key r)) s0
        = s0.filter (fun x => decide (key x ∉ ds.map key)) := by
  induction ds with
  | nil =>
    intro s0
    simp
  | cons r ds ih =>
    intro s0
    rw [List.foldl_cons, ih, IndexedDB.idbDelete, List.filter_filter]
    apply List.filter_congr
    intro x _
    by_cases hx : key x = key r
    · simp [hx]
    · by_cases hmem : key x ∈ ds.map key <;> simp [hx, hmem]

/-- C6: cleanup deletes exactly the daily reports whose id precedes the
YYYY-MM-DD rendering of the cutoff date and keeps the rest, leaving the
yearly store untouched; at the boundary store, 2024-01-31 is deleted and
2024-02-01 retained. -/
theorem cleanupOldReports_spec (db : ReportDB) (d : ReportDatabase.JsDate) :
    (ReportDatabase.cleanupOldReports db d).daily
      = db.daily.filter (fun r => !keyLt r.id (ReportDatabase.toISODate d)) ∧
    (ReportDatabase.cleanupOldReports db d).yearly = db.yearly ∧
    ReportDatabase.toISODate ⟨2024, 2, 1⟩ = "2024-02-01" ∧
    (ReportDatabase.cleanupOldReports exDbCleanup ⟨2024, 2, 1⟩).daily
      = [dRep "2024-02-01"] ∧
    (ReportDatabase.cleanupOldReports exDbCleanup ⟨2024, 2, 1⟩).yearly
      = [yRep "2023"] := by
  refine ⟨?_, rfl, by decide, by decide, by decide⟩
  rw [ReportDatabase.cleanupOldReports]
  simp only [IndexedDB.idbSearch]
  rw [foldl_delete_eq_filter]
  apply List.filter_congr
  intro x hx
  have hP : ∀ r : DailyReport,
      inKeyRange (IndexedDB.lessThanRange (ReportDatabase.toISODate d)) r.id
        = keyLt r.id (ReportDatabase.toISODate d) := fun r => rfl
  cases hlt : keyLt x.id (ReportDatabase.toISODate d) with
  | true =>
    have hxin : x ∈ db.daily.filter
        (fun r => inKeyRange (IndexedDB.lessThanRange (ReportDatabase.toISODate d)) r.id) :=
      List.mem_filter.mpr ⟨hx, by rw [hP x, hlt]⟩
    have : x.id ∈ (db.daily.filter
        (fun r => inKeyRange (IndexedDB.lessThanRange (ReportDatabase.toISODate d)) r.id)).map
          (fun r => r.id) := List.mem_map.mpr ⟨x, hxin, rfl⟩
    simp [this]
  | false =>
    have : x.id ∉ (db.daily.filter
        (fun r => inKeyRange (IndexedDB.lessThanRange (ReportDatabase.toISODate d)) r.id)).map
          (fun r => r.id) := by
      intro hmem
      obtain ⟨y, hy, hyid⟩ := List.mem_map.mp hmem
      have hylt := (List.mem_filter.mp hy).2
      rw [hP y, hyid] at hylt
      rw [hlt] at hylt
      exact absurd hylt (by simp)
    simp [this]

/-! ### Claims C7 and C9: the generic store operations -/

/-- C7: update rejects exactly when the key is absent, leaving the store
untouched on rejection; when the record exists it persists the updated
record via put and resolves with it. -/
theorem idbUpdate_spec {α : Type} (key : α → String) (store : List α) (k : String)
    (updateFn : α → α) :
    ((∃ e, (IndexedDB.idbUpdate key store k updateFn).2 = Except.error e)
        ↔ IndexedDB.idbGet key store k = none) ∧
    (IndexedDB.idbGet key store k = none →
      IndexedDB.idbUpdate key store k updateFn
        = (store, Except.error ("Item with key " ++ k ++ " not found for update"))) ∧
    (∀ v, IndexedDB.idbGet key store k = some v →
      IndexedDB.idbUpdate key store k updateFn
        = (IndexedDB.idbPut key store (updateFn v), Except.ok (updateFn v))) := by
  cases h : IndexedDB.idbGet key store k with
  | none =>
    have hu : IndexedDB.idbUpdate key store k updateFn
        = (store, Except.error ("Item with key " ++ k ++ " not found for update")) := by
      rw [IndexedDB.idbUpdate, h]
    refine ⟨⟨fun _ => rfl, fun _ => ⟨_, by rw [hu]⟩⟩, fun _ => hu, ?_⟩
    intro v hv
    exact absurd hv (by simp)
  | some v0 =>
    have hu : IndexedDB.idbUpdate key store k updateFn
        = (IndexedDB.idbPut key store (updateFn v0), Except.ok (updateFn v0)) := by
      rw [IndexedDB.idbUpdate, h]
    refine ⟨⟨?_, ?_⟩, ?_, ?_⟩
    · rintro ⟨e, he⟩
      rw [hu] at he
      exact absurd he (by simp)
    · intro hn
      exact absurd hn (by simp)
    · intro hn
      exact absurd hn (by simp)
    · intro v hv
      have hvv : v0 = v := Option.some.inj hv
      rw [hu, hvv]

/-- Witness for C7: an existing key updates through put; a missing key
rejects and leaves the store as it was. -/
theorem idbUpdate_spec_witness :
    IndexedDB.idbGet DailyReport.id [dRep "2024-01-01"] "2024-01-01"
      = some (dRep "2024-01-01") ∧
    IndexedDB.idbUpdate DailyReport.id [dRep "2024-01-01"] "2024-01-01"
        (fun r => ⟨r.id, r.date, "Updated", r.data⟩)
      = (IndexedDB.idbPut DailyReport.id [dRep "2024-01-01"]
          ⟨"2024-01-01", "2024-01-01", "Updated", rdEmpty⟩,
         Except.ok ⟨"2024-01-01", "2024-01-01", "Updated", rdEmpty⟩) ∧
    IndexedDB.idbGet DailyReport.id ([] : List DailyReport) "2024-01-01" = none ∧
    IndexedDB.idbUpdate DailyReport.id ([] : List DailyReport) "2024-01-01"
        (fun r => ⟨r.id, r.date, "Updated", r.data⟩)
      = ([], Except.error ("Item with key " ++ "2024-01-01" ++ " not found for update")) := by
  refine ⟨by decide, ?_, by decide, ?_⟩
  · exact (idbUpdate_spec DailyReport.id [dRep "2024-01-01"] "2024-01-01" _).2.2
      (dRep "2024-01-01") (by decide)
  · exact (idbUpdate_spec DailyReport.id [] "2024-01-01" _).2.1 (by decide)

/-- A freshly inserted record is found under its own key, provided no
stored record already carries that key. -/
theorem get_insertSorted {α : Type} (key : α → String) (r : α) : ∀ store : List α,
    (∀ x ∈ store, ¬ (key x == key r) = true) →
    IndexedDB.idbGet key (IndexedDB.insertSorted key r store) (key r) = some r := by
  intro store
  induction store with
  | nil =>
    intro _
    rw [IndexedDB.insertSorted, IndexedDB.idbGet]
    exact List.find?_cons_of_pos _ (by simp)
  | cons x xs ih =>
    intro h
    have hx : ¬ (key x == key r) = true := h x (List.mem_cons_self x xs)
    rw [IndexedDB.insertSorted]
    by_cases hlt : keyLt (key r) (key x) = true
    · rw [if_pos hlt, IndexedDB.idbGet]
      exact List.find?_cons_of_pos _ (by simp)
    · rw [if_neg hlt, IndexedDB.idbGet,
        @List.find?_cons_of_neg _ (fun r' => key r' == key r) x
          (IndexedDB.insertSorted key r xs) hx]
      exact ih (fun y hy => h y (List.mem_cons_of_mem x hy))

/-- C9: adding a record whose key is fresh succeeds, and a get of that key
then returns a value deep-equal to the added record. -/
theorem add_get_roundtrip {α : Type} (key : α → String) (store : List α) (r : α)
    (h : IndexedDB.idbGet key store (key r) = none) :
    IndexedDB.idbAdd key store r = Except.ok (IndexedDB.insertSorted key r store) ∧
    IndexedDB.idbGet key (IndexedDB.insertSorted key r store) (key r) = some r := by
  have hall : ∀ x ∈ store, ¬ (key x == key r) = true := by
    rw [IndexedDB.idbGet] at h
    exact List.find?_eq_none.mp h
  constructor
  · rw [IndexedDB.idbAdd, h]
  · exact get_insertSorted key r store hall

/-- Witness for C9 at a concrete store and record. -/
theorem add_get_roundtrip_witness :
    IndexedDB.idbGet DailyReport.id [dRep "2024-01-01"] (dRep "2024-01-02").id = none ∧
    IndexedDB.idbAdd DailyReport.id [dRep "2024-01-01"] (dRep "2024-01-02")
      = Except.ok (IndexedDB.insertSorted DailyReport.id (dRep "2024-01-02")
          [dRep "2024-01-01"]) ∧
    IndexedDB.idbGet DailyReport.id
        (IndexedDB.insertSorted DailyReport.id (dRep "2024-01-02") [dRep "2024-01-01"])
        (dRep "2024-01-02").id
      = some (dRep "2024-01-02") := by
  refine ⟨by decide, ?_, ?_⟩
  · exact (add_get_roundtrip DailyReport.id _ _ (by decide)).1
  · exact (add_get_roundtrip DailyReport.id _ _ (by decide)).2

/-! ### Claim C8: import -/

/-- Membership in an insertion. -/
theorem mem_insertSorted {α : Type} (key : α → String) (r x : α) : ∀ l : List α,
    x ∈ IndexedDB.insertSorted key r l ↔ x = r ∨ x ∈ l := by
  intro l
  induction l with
  | nil => simp [IndexedDB.insertSorted]
  | cons y ys ih =>
    rw [IndexedDB.insertSorted]
    by_cases hlt : keyLt (key r) (key y) = true
    · rw [if_pos hlt]
      simp [List.mem_cons]
    · rw [if_neg hlt]
      simp only [List.mem_cons, ih]
      tauto

/-- Insertion grows the length by one. -/
theorem length_insertSorted {α : Type} (key : α → String) (r : α) : ∀ l : List α,
    (IndexedDB.insertSorted key r l).length = l.length + 1 := by
  intro l
  induction l with
  | nil => rfl
  | cons y ys ih =>
    rw [IndexedDB.insertSorted]
    by_cases hlt : keyLt (key r) (key y) = true
    · rw [if_pos hlt]
      rfl
    · rw [if_neg hlt]
      simp [ih]

/-- Membership in a bulk insertion. -/
theorem mem_foldl_insertSorted {α : Type} (key : α → String) (items : List α) :
    ∀ (s : List α) (x : α),
      x ∈ items.foldl (fun s i => IndexedDB.insertSorted key i s) s ↔ x ∈ s ∨ x ∈ items := by
  induction items with
  | nil => simp
  | cons i items ih =>
    intro s x
    rw [List.foldl_cons, ih]
    simp only [mem_insertSorted, List.mem_cons]
    tauto

/-- Length of a bulk insertion. -/
theorem length_foldl_insertSorted {α : Type} (key : α → String) (items : List α) :
    ∀ s : List α,
      (items.foldl (fun s i => IndexedDB.insertSorted key i s) s).length
        = s.length + items.length := by
  induction items with
  | nil => simp
  | cons i items ih =>
    intro s
    rw [List.foldl_cons, ih, length_insertSorted]
    simp [List.length_cons]
    omega

/-- The yearly half of the import never touches the daily store. -/
theorem importYearly_daily (db : ReportDB) (yIn : Option (List YearlyReport)) :
    (ReportDatabase.importYearly db yIn).1.daily = db.daily := by
  cases yIn with
  | none => rfl
  | some l =>
    by_cases hl : 0 < l.length
    · rw [ReportDatabase.importYearly, if_pos hl]
    · rw [ReportDatabase.importYearly, if_neg hl]

/-- The yearly half leaves the yearly store alone when no non-empty list
is provided. -/
theorem importYearly_skip (db : ReportDB) (yIn : Option (List YearlyReport))
    (h : yIn = none ∨ yIn = some []) :
    ReportDatabase.importYearly db yIn = (db, none) := by
  rcases h with h | h <;> (rw [h]; rfl)

/-- The yearly half on success replaces the yearly store with exactly the
provided records. -/
theorem importYearly_success (db : ReportDB) (l : List YearlyReport) (hl : l ≠ [])
    (h : (ReportDatabase.importYearly db (some l)).2 = none) :
    (∀ r, r ∈ (ReportDatabase.importYearly db (some l)).1.yearly ↔ r ∈ l) ∧
    (ReportDatabase.importYearly db (some l)).1.yearly.length = l.length := by
  have hpos : 0 < l.length := List.length_pos.mpr hl
  rw [ReportDatabase.importYearly, if_pos hpos] at h ⊢
  rw [IndexedDB.idbAddMultiple] at h ⊢
  by_cases hc : (l.map YearlyReport.id).Nodup ∧
      ∀ i ∈ l, (IndexedDB.idbGet YearlyReport.id ([] : List YearlyReport) (YearlyReport.id i)).isNone
  · rw [if_pos hc]
    constructor
    · intro r
      rw [mem_foldl_insertSorted]
      simp
    · rw [length_foldl_insertSorted]
      simp
  · rw [if_neg hc] at h
    exact absurd h (by simp)

/-- The yearly half result does not read the daily store. -/
theorem importYearly_indep (db1 db2 : ReportDB) (h : db1.yearly = db2.yearly)
    (yIn : Option (List YearlyReport)) :
    (ReportDatabase.importYearly db1 yIn).1.yearly
      = (ReportDatabase.importYearly db2 yIn).1.yearly ∧
    (ReportDatabase.importYearly db1 yIn).2 = (ReportDatabase.importYearly db2 yIn).2 := by
  cases yIn with
  | none => exact ⟨h, rfl⟩
  | some l =>
    by_cases hl : 0 < l.length
    · rw [ReportDatabase.importYearly, ReportDatabase.importYearly, if_pos hl, if_pos hl]
      exact ⟨rfl, rfl⟩
    · rw [ReportDatabase.importYearly, ReportDatabase.importYearly, if_neg hl, if_neg hl]
      exact ⟨h, rfl⟩

/-- A successful bulk add into a cleared store holds exactly the provided
records. -/
theorem addMultiple_empty_success {α : Type} (key : α → String) (l : List α)
    (h : (IndexedDB.idbAddMultiple key ([] : List α) l).2 = none) :
    (∀ x, x ∈ (IndexedDB.idbAddMultiple key ([] : List α) l).1 ↔ x ∈ l) ∧
    (IndexedDB.idbAddMultiple key ([] : List α) l).1.length = l.length := by
  rw [IndexedDB.idbAddMultiple] at h ⊢
  by_cases hc : (l.map key).Nodup ∧ ∀ i ∈ l, (IndexedDB.idbGet key ([] : List α) (key i)).isNone
  · rw [if_pos hc]
    constructor
    · intro x
      dsimp only
      rw [mem_foldl_insertSorted]
      simp
    · dsimp only
      rw [length_foldl_insertSorted]
      simp
  · rw [if_neg hc] at h
    exact absurd h (by simp)

/-- importReports with an absent daily list goes straight to the yearly
half. -/
theorem importReports_none (db : ReportDB) (yIn : Option (List YearlyReport)) :
    ReportDatabase.importReports db ⟨none, yIn⟩ = ReportDatabase.importYearly db yIn := rfl

/-- importReports with an empty daily list goes straight to the yearly
half. -/
theorem importReports_small (db : ReportDB) (l : List DailyReport)
    (yIn : Option (List YearlyReport)) (hl : ¬ 0 < l.length) :
    ReportDatabase.importReports db ⟨some l, yIn⟩ = ReportDatabase.importYearly db yIn := by
  rw [ReportDatabase.importReports]
  dsimp only
  rw [if_neg hl]

/-- importReports when the daily bulk add succeeds. -/
theorem importReports_daily_ok (db : ReportDB) (l : List DailyReport)
    (yIn : Option (List YearlyReport)) (hl : 0 < l.length)
    (hp : (IndexedDB.idbAddMultiple DailyReport.id ([] : List DailyReport) l).2 = none) :
    ReportDatabase.importReports db ⟨some l, yIn⟩
      = ReportDatabase.importYearly
          ⟨(IndexedDB.idbAddMultiple DailyReport.id ([] : List DailyReport) l).1,
           db.yearly⟩ yIn := by
  rw [ReportDatabase.importReports]
  dsimp only
  rw [if_pos hl, hp]

/-- importReports when the daily bulk add fails: it rejects at once with
the daily store left cleared and the yearly store untouched. -/
theorem importReports_daily_err (db : ReportDB) (l : List DailyReport)
    (yIn : Option (List YearlyReport)) (hl : 0 < l.length) (e : String)
    (hp : (IndexedDB.idbAddMultiple DailyReport.id ([] : List DailyReport) l).2 = some e) :
    ReportDatabase.importReports db ⟨some l, yIn⟩
      = (⟨(IndexedDB.idbAddMultiple DailyReport.id ([] : List DailyReport) l).1,
          db.yearly⟩, some e) := by
  rw [ReportDatabase.importReports]
  dsimp only
  rw [if_pos hl, hp]

/-- C8: importReports leaves a store alone when its array is absent or
empty; when the import succeeds, a provided non-empty store holds exactly
the provided records; and each store's outcome is independent of the other
store's prior contents. -/
theorem importReports_spec (db : ReportDB) (data : ReportDatabase.ImportData) :
    ((data.dailyReports = none ∨ data.dailyReports = some []) →
      (ReportDatabase.importReports db data).1.daily = db.daily) ∧
    ((data.yearlyReports = none ∨ data.yearlyReports = some []) →
      (ReportDatabase.importReports db data).1.yearly = db.yearly) ∧
    (∀ l, data.dailyReports = some l → l ≠ [] →
      (ReportDatabase.importReports db data).2 = none →
      (∀ r, r ∈ (ReportDatabase.importReports db data).1.daily ↔ r ∈ l) ∧
      (ReportDatabase.importReports db data).1.daily.length = l.length) ∧
    (∀ l, data.yearlyReports = some l → l ≠ [] →
      (ReportDatabase.importReports db data).2 = none →
      (∀ r, r ∈ (ReportDatabase.importReports db data).1.yearly ↔ r ∈ l) ∧
      (ReportDatabase.importReports db data).1.yearly.length = l.length) ∧
    (∀ db' : ReportDB, db'.daily = db.daily →
      (ReportDatabase.importReports db' data).1.daily
        = (ReportDatabase.importReports db data).1.daily) ∧
    (∀ db' : ReportDB, db'.yearly = db.yearly →
      (ReportDatabase.importReports db' data).1.yearly
        = (ReportDatabase.importReports db data).1.yearly) := by
  obtain ⟨dIn, yIn⟩ := data
  refine ⟨?_, ?_, ?_, ?_, ?_, ?_⟩
  · -- daily untouched when absent or empty
    rintro (h | h) <;> (dsimp only at h; subst h)
    · rw [importReports_none]
      exact importYearly_daily db yIn
    · rw [importReports_small db [] yIn (by simp)]
      exact importYearly_daily db yIn
  · -- yearly untouched when absent or empty
    intro h
    dsimp only at h
    cases dIn with
    | none =>
      rw [importReports_none, importYearly_skip db yIn h]
    | some l =>
      by_cases hl : 0 < l.length
      · cases hp : (IndexedDB.idbAddMultiple DailyReport.id ([] : List DailyReport) l).2 with
        | none =>
          rw [importReports_daily_ok db l yIn hl hp, importYearly_skip _ yIn h]
        | some e =>
          rw [importReports_daily_err db l yIn hl e hp]
      · rw [importReports_small db l yIn hl, importYearly_skip db yIn h]
  · -- daily replaced on success
    intro l hdl hne hsucc
    dsimp only at hdl
    subst hdl
    have hl : 0 < l.length := List.length_pos.mpr hne
    cases hp : (IndexedDB.idbAddMultiple DailyReport.id ([] : List DailyReport) l).2 with
    | none =>
      rw [importReports_daily_ok db l yIn hl hp]
      have ham := addMultiple_empty_success DailyReport.id l hp
      rw [importYearly_daily]
      exact ⟨fun r => ham.1 r, ham.2⟩
    | some e =>
      rw [importReports_daily_err db l yIn hl e hp] at hsucc
      exact absurd hsucc (by simp)
  · -- yearly replaced on success
    intro l hyl hne hsucc
    dsimp only at hyl
    subst hyl
    cases dIn with
    | none =>
      rw [importReports_none] at hsucc ⊢
      exact importYearly_success db l hne hsucc
    | some ld =>
      by_cases hl : 0 < ld.length
      · cases hp : (IndexedDB.idbAddMultiple DailyReport.id ([] : List DailyReport) ld).2 with
        | none =>
          rw [importReports_daily_ok db ld (some l) hl hp] at hsucc ⊢
          exact importYearly_success _ l hne hsucc
        | some e =>
          rw [importReports_daily_err db ld (some l) hl e hp] at hsucc
          exact absurd hsucc (by simp)
      · rw [importReports_small db ld (some l) hl] at hsucc ⊢
        exact importYearly_success db l hne hsucc
  · -- final daily content ignores the other store and prior contents
    intro db' hdb
    cases dIn with
    | none =>
      rw [importReports_none, importReports_none, importYearly_daily, importYearly_daily]
      exact hdb
    | some l =>
      by_cases hl : 0 < l.length
      · cases hp : (IndexedDB.idbAddMultiple DailyReport.id ([] : List DailyReport) l).2 with
        | none =>
          rw [importReports_daily_ok db' l yIn hl hp, importReports_daily_ok db l yIn hl hp,
            importYearly_daily, importYearly_daily]
        | some e =>
          rw [importReports_daily_err db' l yIn hl e hp, importReports_daily_err db l yIn hl e hp]
      · rw [importReports_small db' l yIn hl, importReports_small db l yIn hl,
          importYearly_daily, importYearly_daily]
        exact hdb
  · -- final yearly content ignores the other store and prior contents
    intro db' hdb
    cases dIn with
    | none =>
      rw [importReports_none, importReports_none]
      exact (importYearly_indep db' db hdb yIn).1
    | some l =>
      by_cases hl : 0 < l.length
      · cases hp : (IndexedDB.idbAddMultiple DailyReport.id ([] : List DailyReport) l).2 with
        | none =>
          rw [importReports_daily_ok db' l yIn hl hp, importReports_daily_ok db l yIn hl hp]
          exact (importYearly_indep
            ⟨(IndexedDB.idbAddMultiple DailyReport.id ([] : List DailyReport) l).1, db'.yearly⟩
            ⟨(IndexedDB.idbAddMultiple DailyReport.id ([] : List DailyReport) l).1, db.yearly⟩
            hdb yIn).1
        | some e =>
          rw [importReports_daily_err db' l yIn hl e hp, importReports_daily_err db l yIn hl e hp]
          exact hdb
      · rw [importReports_small db' l yIn hl, importReports_small db l yIn hl]
        exact (importYearly_indep db' db hdb yIn).1

/-- Witness for C8: importing one daily report with an empty yearly array
replaces the daily store and leaves the yearly store untouched. -/
theorem importReports_spec_witness :
    (ReportDatabase.importReports exDbCleanup importEx).2 = none ∧
    (ReportDatabase.importReports exDbCleanup importEx).1.yearly = exDbCleanup.yearly ∧
    (∀ r, r ∈ (ReportDatabase.importReports exDbCleanup importEx).1.daily
      ↔ r ∈ [dRep "2025-01-01"]) ∧
    (ReportDatabase.importReports exDbCleanup importEx).1.daily.length = 1 := by
  have T := importReports_spec exDbCleanup importEx
  refine ⟨by decide, T.2.1 (Or.inr rfl), ?_, ?_⟩
  · exact (T.2.2.1 [dRep "2025-01-01"] rfl (by decide) (by decide)).1
  · exact (T.2.2.1 [dRep "2025-01-01"] rfl (by decide) (by decide)).2

/-! ### Lemmas about the insertion-ordered map -/

/-- Lookup after setting a key finds the new value. -/
theorem mapFind_set_self {β : Type} (m : List (String × β)) (k : String) (v : β) :
    mapFind (mapSet m k v) k = some v := by
  induction m with
  | nil => simp [mapSet, mapFind]
  | cons p m ih =>
    obtain ⟨k', v'⟩ := p
    rw [mapSet]
    by_cases h : k' = k
    · rw [if_pos h]
      simp [mapFind]
    · rw [if_neg h, mapFind,
        @List.find?_cons_of_neg _ (fun p => p.1 == k) (k', v') _ (by simp [h])]
      exact ih

/-- Lookup of a different key is unchanged by a set. -/
theorem mapFind_set_other {β : Type} (m : List (String × β)) (k k' : String) (v : β)
    (h : k' ≠ k) :
    mapFind (mapSet m k v) k' = mapFind m k' := by
  induction m with
  | nil =>
    rw [mapSet, mapFind, mapFind,
      @List.find?_cons_of_neg _ (fun p => p.1 == k') (k, v) _ (by simp [Ne.symm h])]
  | cons p m ih =>
    obtain ⟨a, b⟩ := p
    rw [mapSet]
    by_cases ha : a = k
    · rw [if_pos ha, mapFind, mapFind]
      subst ha
      by_cases hk' : a = k'
      · exact absurd hk'.symm h
      · rw [@List.find?_cons_of_neg _ (fun p => p.1 == k') (a, v) _ (by simp [hk']),
          @List.find?_cons_of_neg _ (fun p => p.1 == k') (a, b) _ (by simp [hk'])]
    · rw [if_neg ha]
      by_cases hk' : a = k'
      · subst hk'
        rw [mapFind, mapFind,
          @List.find?_cons_of_pos _ (fun p => p.1 == a) (a, b) _ (by simp),
          @List.find?_cons_of_pos _ (fun p => p.1 == a) (a, b) _ (by simp)]
      · rw [mapFind, mapFind,
          @List.find?_cons_of_neg _ (fun p => p.1 == k') (a, b) _ (by simp [hk']),
          @List.find?_cons_of_neg _ (fun p => p.1 == k') (a, b) _ (by simp [hk'])]
        exact ih

/-- Keys after a set: the old keys plus possibly the new one. -/
theorem mem_keys_set {β : Type} (m : List (String × β)) (k k' : String) (v : β) :
    k' ∈ keysOf (mapSet m k v) ↔ k' ∈ keysOf m ∨ k' = k := by
  induction m with
  | nil => simp [mapSet, keysOf]
  | cons p m ih =>
    obtain ⟨a, b⟩ := p
    rw [mapSet]
    by_cases h : a = k
    · rw [if_pos h]
      subst h
      simp [keysOf, List.mem_cons]
      tauto
    · rw [if_neg h]
      simp only [keysOf, List.map_cons, List.mem_cons] at ih ⊢
      rw [ih]
      tauto

/-- A set preserves distinctness of the keys. -/
theorem nodup_keys_set {β : Type} (m : List (String × β)) (k : String) (v : β)
    (h : (keysOf m).Nodup) : (keysOf (mapSet m k v)).Nodup := by
  induction m with
  | nil => simp [mapSet, keysOf]
  | cons p m ih =>
    obtain ⟨a, b⟩ := p
    rw [keysOf, List.map_cons, List.nodup_cons] at h
    rw [mapSet]
    by_cases hk : a = k
    · rw [if_pos hk]
      subst hk
      rw [keysOf, List.map_cons, List.nodup_cons]
      exact h
    · rw [if_neg hk]
      rw [keysOf, List.map_cons, List.nodup_cons]
      constructor
      · intro hmem
        rcases (mem_keys_set m k a v).mp hmem with hm | he
        · exact h.1 hm
        · exact hk he
      · exact ih h.2

/-- Adding v at key k raises the value sum by exactly v. -/
theorem vals_set (m : List (String × ℚ)) (k : String) (v : ℚ) :
    vals (mapSet m k ((mapFind m k).getD 0 + v)) = vals m + v := by
  induction m with
  | nil => simp [mapSet, mapFind, vals]
  | cons p m ih =>
    obtain ⟨a, b⟩ := p
    rw [mapSet]
    by_cases h : a = k
    · rw [if_pos h]
      subst h
      rw [mapFind, @List.find?_cons_of_pos _ (fun p => p.1 == a) (a, b) _ (by simp)]
      simp [vals]
      ring
    · rw [if_neg h]
      have hfind : mapFind ((a, b) :: m) k = mapFind m k := by
        rw [mapFind, mapFind,
          @List.find?_cons_of_neg _ (fun p => p.1 == k) (a, b) _ (by simp [h])]
      rw [hfind]
      simp only [vals, List.map_cons, List.sum_cons] at ih ⊢
      rw [ih]
      ring

/-! ### Conservation of the pie totals -/

/-- One pie accumulation step, unfolded. -/
theorem mergePie_cons (p : List (String × ℚ) × ℚ) (it : PieChartData)
    (items : List PieChartData) :
    mergePie p (it :: items)
      = mergePie (mapSet p.1 it.name ((mapFind p.1 it.name).getD 0 + it.value),
          p.2 + it.value) items := rfl

/-- Accumulating a slice list adds its value sum to both the per-category
value sum and the grand total. -/
theorem mergePie_invariant (items : List PieChartData) :
    ∀ (ct : List (String × ℚ)) (gt : ℚ),
      vals (mergePie (ct, gt) items).1 = vals ct + (items.map PieChartData.value).sum ∧
      (mergePie (ct, gt) items).2 = gt + (items.map PieChartData.value).sum := by
  induction items with
  | nil =>
    intro ct gt
    constructor <;> simp [mergePie]
  | cons it items ih =>
    intro ct gt
    rw [mergePie_cons]
    obtain ⟨h1, h2⟩ := ih (mapSet ct it.name ((mapFind ct it.name).getD 0 + it.value))
      (gt + it.value)
    constructor
    · rw [h1, vals_set]
      simp [List.sum_cons]
      ring
    · rw [h2]
      simp [List.sum_cons]
      ring

/-- The merge loop accumulates the grand total and conserves it in the
per-category totals. -/
theorem merge_totals (l : List ReportData) : ∀ a : MergeAcc,
    vals ((l.foldl mergeStep a).categoryTotals)
      = vals a.categoryTotals + grandTotalOf l ∧
    (l.foldl mergeStep a).grandTotal = a.grandTotal + grandTotalOf l := by
  induction l with
  | nil =>
    intro a
    constructor <;> simp [grandTotalOf]
  | cons rd l ih =>
    intro a
    rw [List.foldl_cons]
    obtain ⟨h1, h2⟩ := ih (mergeStep a rd)
    have hct : (mergeStep a rd).categoryTotals
        = (mergePie (a.categoryTotals, a.grandTotal) rd.pieChart).1 := rfl
    have hgt : (mergeStep a rd).grandTotal
        = (mergePie (a.categoryTotals, a.grandTotal) rd.pieChart).2 := rfl
    obtain ⟨hp1, hp2⟩ := mergePie_invariant rd.pieChart a.categoryTotals a.grandTotal
    have hgrand : grandTotalOf (rd :: l) = pieSum rd + grandTotalOf l := by
      simp [grandTotalOf, List.sum_cons]
    constructor
    · rw [h1, hct, hp1, hgrand, pieSum]
      ring
    · rw [h2, hgt, hp2, hgrand, pieSum]
      ring

/-! ### Accumulation of activity counts -/

/-- lookup0 after a set at the same key. -/
theorem lookup0_set_self (m : List (String × ℚ)) (k : String) (v : ℚ) :
    lookup0 (mapSet m k v) k = v := by
  rw [lookup0, mapFind_set_self]
  rfl

/-- lookup0 after a set at a different key. -/
theorem lookup0_set_other (m : List (String × ℚ)) (k k' : String) (v : ℚ) (h : k' ≠ k) :
    lookup0 (mapSet m k v) k' = lookup0 m k' := by
  rw [lookup0, mapFind_set_other m k k' v h]
  rfl

/-- lookupA after a set at the same key. -/
theorem lookupA_set_self (ca : List (String × List (String × ℚ))) (k : String)
    (x : List (String × ℚ)) : lookupA (mapSet ca k x) k = x := by
  rw [lookupA, mapFind_set_self]
  rfl

/-- lookupA after a set at a different key. -/
theorem lookupA_set_other (ca : List (String × List (String × ℚ))) (k k' : String)
    (x : List (String × ℚ)) (h : k' ≠ k) : lookupA (mapSet ca k x) k' = lookupA ca k' := by
  rw [lookupA, mapFind_set_other ca k k' x h]
  rfl

/-- The head step of sumActs. -/
theorem sumActs_cons (act : Activity) (acts : List Activity) (a : String) :
    sumActs (act :: acts) a
      = (if act.activity = a then act.count else 0) + sumActs acts a := by
  by_cases h : act.activity = a
  · rw [if_pos h, sumActs, List.filter_cons_of_pos (by simp [h]), sumActs]
    simp [List.sum_cons]
  · rw [if_neg h, sumActs, List.filter_cons_of_neg (by simp [h]), sumActs]
    simp

/-- One activity accumulation step, unfolded. -/
theorem mergeActs_cons (m : List (String × ℚ)) (act : Activity) (acts : List Activity) :
    mergeActs m (act :: acts)
      = mergeActs (mapSet m act.activity ((mapFind m act.activity).getD 0 + act.count)) acts :=
  rfl

/-- Accumulating an activity list adds its per-name sums. -/
theorem lookup0_mergeActs (acts : List Activity) :
    ∀ (m : List (String × ℚ)) (a : String),
      lookup0 (mergeActs m acts) a = lookup0 m a + sumActs acts a := by
  induction acts with
  | nil =>
    intro m a
    simp [mergeActs, sumActs]
  | cons act acts ih =>
    intro m a
    rw [mergeActs_cons, ih, sumActs_cons]
    by_cases h : act.activity = a
    · rw [if_pos h, h, lookup0_set_self]
      rw [lookup0]
      ring
    · rw [if_neg h, lookup0_set_other _ _ _ _ (fun he => h he.symm)]
      ring

/-- Keys occurring after an activity accumulation. -/
theorem mem_keys_mergeActs (acts : List Activity) :
    ∀ (m : List (String × ℚ)) (a : String),
      a ∈ keysOf (mergeActs m acts) ↔ a ∈ keysOf m ∨ a ∈ acts.map Activity.activity := by
  induction acts with
  | nil =>
    intro m a
    simp [mergeActs]
  | cons act acts ih =>
    intro m a
    rw [mergeActs_cons, ih, mem_keys_set]
    simp [List.mem_cons]
    tauto

/-- Activity accumulation preserves key distinctness. -/
theorem nodup_keys_mergeActs (acts : List Activity) :
    ∀ m : List (String × ℚ),
      (keysOf m).Nodup → (keysOf (mergeActs m acts)).Nodup := by
  induction acts with
  | nil =>
    intro m h
    exact h
  | cons act acts ih =>
    intro m h
    rw [mergeActs_cons]
    exact ih _ (nodup_keys_set m _ _ h)

/-! ### Accumulation of the detailed report -/

/-- One detail accumulation step, unfolded. -/
theorem mergeDetail_cons (ca : List (String × List (String × ℚ)))
    (d : DetailedReportData) (ds : List DetailedReportData) :
    mergeDetail ca (d :: ds)
      = mergeDetail
          (mapSet ca d.category (mergeActs ((mapFind ca d.category).getD []) d.activities))
          ds := rfl

/-- The head step of sumDetails. -/
theorem sumDetails_cons (d : DetailedReportData) (ds : List DetailedReportData)
    (c a : String) :
    sumDetails (d :: ds) c a
      = (if d.category = c then sumActs d.activities a else 0) + sumDetails ds c a := by
  by_cases h : d.category = c
  · rw [if_pos h, sumDetails, List.filter_cons_of_pos (by simp [h]), sumDetails]
    simp [List.sum_cons]
  · rw [if_neg h, sumDetails, List.filter_cons_of_neg (by simp [h]), sumDetails]
    simp

/-- Accumulating a detailed report adds its per-pair sums. -/
theorem lookup0_mergeDetail (ds : List DetailedReportData) :
    ∀ (ca : List (String × List (String × ℚ))) (c a : String),
      lookup0 (lookupA (mergeDetail ca ds) c) a
        = lookup0 (lookupA ca c) a + sumDetails ds c a := by
  induction ds with
  | nil =>
    intro ca c a
    simp [mergeDetail, sumDetails]
  | cons d ds ih =>
    intro ca c a
    rw [mergeDetail_cons, ih, sumDetails_cons]
    by_cases h : d.category = c
    · rw [if_pos h, h, lookupA_set_self, lookup0_mergeActs]
      rw [lookupA]
      ring
    · rw [if_neg h, lookupA_set_other _ _ _ _ (fun he => h he.symm)]
      ring

/-- Categories occurring after a detail accumulation. -/
theorem mem_keys_mergeDetail (ds : List DetailedReportData) :
    ∀ (ca : List (String × List (String × ℚ))) (c : String),
      c ∈ keysOf (mergeDetail ca ds)
        ↔ c ∈ keysOf ca ∨ c ∈ ds.map DetailedReportData.category := by
  induction ds with
  | nil =>
    intro ca c
    simp [mergeDetail]
  | cons d ds ih =>
    intro ca c
    rw [mergeDetail_cons, ih, mem_keys_set]
    simp [List.mem_cons]
    tauto

/-- Activity names occurring inside one category after a detail
accumulation. -/
theorem mem_inner_keys_mergeDetail (ds : List DetailedReportData) :
    ∀ (ca : List (String × List (String × ℚ))) (c a : String),
      a ∈ keysOf (lookupA (mergeDetail ca ds) c)
        ↔ a ∈ keysOf (lookupA ca c)
          ∨ ∃ d ∈ ds, d.category = c ∧ a ∈ d.activities.map Activity.activity := by
  induction ds with
  | nil =>
    intro ca c a
    simp [mergeDetail]
  | cons d ds ih =>
    intro ca c a
    rw [mergeDetail_cons, ih]
    by_cases h : d.category = c
    · rw [h, lookupA_set_self, mem_keys_mergeActs]
      rw [lookupA]
      simp only [List.exists_mem_cons_iff, h]
      constructor
      · rintro ((hm | hacts) | hrest)
        · exact Or.inl hm
        · exact Or.inr (Or.inl ⟨trivial, hacts⟩)
        · exact Or.inr (Or.inr hrest)
      · rintro (hm | (⟨-, hacts⟩ | hrest))
        · exact Or.inl (Or.inl hm)
        · exact Or.inl (Or.inr hacts)
        · exact Or.inr hrest
    · rw [lookupA_set_other _ _ _ _ (fun he => h he.symm)]
      simp only [List.exists_mem_cons_iff]
      constructor
      · rintro (hm | hrest)
        · exact Or.inl hm
        · exact Or.inr (Or.inr hrest)
      · rintro (hm | (⟨hc, -⟩ | hrest))
        · exact Or.inl hm
        · exact absurd hc h
        · exact Or.inr hrest

/-- Detail accumulation preserves distinctness of the categories. -/
theorem nodup_keys_mergeDetail (ds : List DetailedReportData) :
    ∀ ca : List (String × List (String × ℚ)),
      (keysOf ca).Nodup → (keysOf (mergeDetail ca ds)).Nodup := by
  induction ds with
  | nil =>
    intro ca h
    exact h
  | cons d ds ih =>
    intro ca h
    rw [mergeDetail_cons]
    exact ih _ (nodup_keys_set ca _ _ h)

/-- Detail accumulation preserves distinctness of the activity names in
every category. -/
theorem nodup_inner_mergeDetail (ds : List DetailedReportData) :
    ∀ ca : List (String × List (String × ℚ)),
      (∀ c, (keysOf (lookupA ca c)).Nodup) →
      ∀ c, (keysOf (lookupA (mergeDetail ca ds) c)).Nodup := by
  induction ds with
  | nil =>
    intro ca h c
    exact h c
  | cons d ds ih =>
    intro ca h c
    rw [mergeDetail_cons]
    refine ih _ ?_ c
    intro c'
    by_cases hc : c' = d.category
    · rw [hc, lookupA_set_self]
      exact nodup_keys_mergeActs d.activities _ (h d.category)
    · rw [lookupA_set_other _ _ _ _ hc]
      exact h c'

/-! ### The merge loop over all reports -/

/-- The category-activity accumulator of the merge loop is the fold of the
detail accumulation alone. -/
theorem acc_detail_eq (l : List ReportData) : ∀ a : MergeAcc,
    (l.foldl mergeStep a).categoryActivities
      = l.foldl (fun ca rd => mergeDetail ca rd.detailedReport) a.categoryActivities := by
  induction l with
  | nil =>
    intro a
    rfl
  | cons rd l ih =>
    intro a
    rw [List.foldl_cons, List.foldl_cons, ih]
    rfl

/-- Per-pair counts over the whole loop. -/
theorem lookup0_fold_detail (l : List ReportData) :
    ∀ (ca : List (String × List (String × ℚ))) (c a : String),
      lookup0 (lookupA (l.foldl (fun ca rd => mergeDetail ca rd.detailedReport) ca) c) a
        = lookup0 (lookupA ca c) a + totalCount l c a := by
  induction l with
  | nil =>
    intro ca c a
    simp [totalCount]
  | cons rd l ih =>
    intro ca c a
    rw [List.foldl_cons, ih, lookup0_mergeDetail]
    have : totalCount (rd :: l) c a
        = sumDetails rd.detailedReport c a + totalCount l c a := by
      simp [totalCount, List.sum_cons]
    rw [this]
    ring

/-- Categories present after the whole loop. -/
theorem mem_keys_fold_detail (l : List ReportData) :
    ∀ (ca : List (String × List (String × ℚ))) (c : String),
      c ∈ keysOf (l.foldl (fun ca rd => mergeDetail ca rd.detailedReport) ca)
        ↔ c ∈ keysOf ca ∨ ∃ rd ∈ l, c ∈ rd.detailedReport.map DetailedReportData.category := by
  induction l with
  | nil =>
    intro ca c
    simp
  | cons rd l ih =>
    intro ca c
    rw [List.foldl_cons, ih, mem_keys_mergeDetail]
    simp only [List.exists_mem_cons_iff]
    tauto

/-- Activity names present inside one category after the whole loop. -/
theorem mem_inner_keys_fold_detail (l : List ReportData) :
    ∀ (ca : List (String × List (String × ℚ))) (c a : String),
      a ∈ keysOf (lookupA (l.foldl (fun ca rd => mergeDetail ca rd.detailedReport) ca) c)
        ↔ a ∈ keysOf (lookupA ca c)
          ∨ ∃ rd ∈ l, ∃ d ∈ rd.detailedReport,
              d.category = c ∧ a ∈ d.activities.map Activity.activity := by
  induction l with
  | nil =>
    intro ca c a
    simp
  | cons rd l ih =>
    intro ca c a
    rw [List.foldl_cons, ih, mem_inner_keys_mergeDetail]
    simp only [List.exists_mem_cons_iff]
    constructor
    · rintro ((hm | hd) | hrest)
      · exact Or.inl hm
      · exact Or.inr (Or.inl hd)
      · exact Or.inr (Or.inr hrest)
    · rintro (hm | (hd | hrest))
      · exact Or.inl (Or.inl hm)
      · exact Or.inl (Or.inr hd)
      · exact Or.inr hrest

/-- Category keys stay distinct over the whole loop. -/
theorem nodup_keys_fold_detail (l : List ReportData) :
    ∀ ca : List (String × List (String × ℚ)),
      (keysOf ca).Nodup →
      (keysOf (l.foldl (fun ca rd => mergeDetail ca rd.detailedReport) ca)).Nodup := by
  induction l with
  | nil =>
    intro ca h
    exact h
  | cons rd l ih =>
    intro ca h
    rw [List.foldl_cons]
    exact ih _ (nodup_keys_mergeDetail rd.detailedReport ca h)

/-- Activity keys stay distinct in every category over the whole loop. -/
theorem nodup_inner_fold_detail (l : List ReportData) :
    ∀ ca : List (String × List (String × ℚ)),
      (∀ c, (keysOf (lookupA ca c)).Nodup) →
      ∀ c, (keysOf (lookupA (l.foldl (fun ca rd => mergeDetail ca rd.detailedReport) ca) c)).Nodup := by
  induction l with
  | nil =>
    intro ca h
    exact h
  | cons rd l ih =>
    intro ca h
    rw [List.foldl_cons]
    exact ih _ (nodup_inner_mergeDetail rd.detailedReport ca h)

/-! ### Unique association entries -/

/-- A key present among distinct keys is found. -/
theorem mapFind_isSome_of_mem {β : Type} (m : List (String × β)) (c : String)
    (h : c ∈ keysOf m) : ∃ v, mapFind m c = some v := by
  induction m with
  | nil => simp [keysOf] at h
  | cons p m ih =>
    obtain ⟨a, b⟩ := p
    by_cases hc : a = c
    · exact ⟨b, by rw [mapFind,
        @List.find?_cons_of_pos _ (fun p => p.1 == c) (a, b) _ (by simp [hc])]; rfl⟩
    · rw [keysOf, List.map_cons, List.mem_cons] at h
      rcases h with h | h
      · exact absurd h.symm hc
      · obtain ⟨v, hv⟩ := ih h
        exact ⟨v, by rw [mapFind,
          @List.find?_cons_of_neg _ (fun p => p.1 == c) (a, b) _ (by simp [hc])]; exact hv⟩

/-- With distinct keys, filtering an association list down to one key
leaves exactly its entry. -/
theorem filter_eq_single {β : Type} (m : List (String × β)) (c : String) (v : β)
    (hnd : (keysOf m).Nodup) (hf : mapFind m c = some v) :
    m.filter (fun p => p.1 == c) = [(c, v)] := by
  induction m with
  | nil => exact absurd hf (by simp [mapFind])
  | cons p m ih =>
    obtain ⟨a, b⟩ := p
    rw [keysOf, List.map_cons, List.nodup_cons] at hnd
    by_cases hc : a = c
    · subst hc
      rw [mapFind, @List.find?_cons_of_pos _ (fun p => p.1 == a) (a, b) _ (by simp)] at hf
      simp at hf
      rw [List.filter_cons_of_pos (by simp)]
      rw [show b = v from hf]
      have : m.filter (fun p => p.1 == a) = [] := by
        apply List.filter_eq_nil_iff.mpr
        intro q hq hqa
        apply hnd.1
        rw [beq_iff_eq] at hqa
        rw [← hqa]
        exact List.mem_map.mpr ⟨q, hq, rfl⟩
      rw [this]
    · rw [mapFind, @List.find?_cons_of_neg _ (fun p => p.1 == c) (a, b) _ (by simp [hc])] at hf
      rw [List.filter_cons_of_neg (by simp [hc])]
      exact ih hnd.2 hf

/-- Filtering a mapped list commutes with mapping the filtered list when
the predicates agree across the map. -/
theorem filter_map_comm {β γ : Type} (f : β → γ) (p : γ → Bool) (q : β → Bool)
    (h : ∀ x, p (f x) = q x) (l : List β) : (l.map f).filter p = (l.filter q).map f := by
  induction l with
  | nil => rfl
  | cons x l ih =>
    rw [List.map_cons]
    cases hx : q x with
    | true =>
      rw [List.filter_cons_of_pos (by rw [h x, hx]), List.filter_cons_of_pos hx,
        List.map_cons, ih]
    | false =>
      rw [List.filter_cons_of_neg (by rw [h x]; simp [hx]),
        List.filter_cons_of_neg (by simp [hx]), ih]

/-! ### Claim C1 -/

/-- C1: the merge conserves the grand total of pie slice values; every
(category, activity) pair occurring in any input occurs exactly once in
the output's detailed report, under exactly one entry of its category,
with the exact summed count; and each category's activities are sorted by
descending count. -/
theorem mergeReportData_aggregation (l : List ReportData) :
    ((mergeReportData l).pieChart.map PieChartData.value).sum = grandTotalOf l ∧
    (∀ c a : String, appearsIn l c a →
      ((mergeReportData l).detailedReport.filter (fun d => d.category == c)).map
          (fun d => d.activities.filter (fun x => x.activity == a))
        = [[⟨a, totalCount l c a⟩]]) ∧
    (∀ d ∈ (mergeReportData l).detailedReport,
      d.activities.Pairwise (fun x y : Activity => y.count ≤ x.count)) := by
  have hdet : (mergeReportData l).detailedReport
      = (l.foldl mergeStep ⟨[], [], 0⟩).categoryActivities.map
          (fun p => (⟨p.1, (p.2.map (fun q => (⟨q.1, q.2⟩ : Activity))).insertionSort actGE⟩
            : DetailedReportData)) := rfl
  refine ⟨?_, ?_, ?_⟩
  · -- conservation of the grand total
    have hpie : (mergeReportData l).pieChart
        = (l.foldl mergeStep ⟨[], [], 0⟩).categoryTotals.map
            (fun p => (⟨p.1, p.2⟩ : PieChartData)) := rfl
    have h := (merge_totals l ⟨[], [], 0⟩).1
    have hv : vals (l.foldl mergeStep ⟨[], [], 0⟩).categoryTotals = grandTotalOf l := by
      rw [h]
      simp [vals]
    rw [hpie, List.map_map, ← hv, vals]
    rfl
  · -- exactly one entry with the exact summed count
    intro c a happ
    have hfold : (l.foldl mergeStep ⟨[], [], 0⟩).categoryActivities
        = l.foldl (fun ca rd => mergeDetail ca rd.detailedReport) [] :=
      acc_detail_eq l ⟨[], [], 0⟩
    have hndout : (keysOf (l.foldl mergeStep ⟨[], [], 0⟩).categoryActivities).Nodup := by
      rw [hfold]
      exact nodup_keys_fold_detail l [] (by simp [keysOf])
    have hndin : ∀ c', (keysOf (lookupA (l.foldl mergeStep ⟨[], [], 0⟩).categoryActivities c')).Nodup := by
      rw [hfold]
      exact nodup_inner_fold_detail l [] (fun c' => by simp [lookupA, mapFind, keysOf])
    obtain ⟨rd, hrd, d0, hd0, hd0c, act0, hact0, hact0a⟩ := happ
    have hcmem : c ∈ keysOf (l.foldl mergeStep ⟨[], [], 0⟩).categoryActivities := by
      rw [hfold, mem_keys_fold_detail]
      exact Or.inr ⟨rd, hrd, List.mem_map.mpr ⟨d0, hd0, hd0c⟩⟩
    have hamem : a ∈ keysOf (lookupA (l.foldl mergeStep ⟨[], [], 0⟩).categoryActivities c) := by
      rw [hfold, mem_inner_keys_fold_detail]
      exact Or.inr ⟨rd, hrd, d0, hd0, hd0c, List.mem_map.mpr ⟨act0, hact0, hact0a⟩⟩
    obtain ⟨amc, hamc⟩ :=
      mapFind_isSome_of_mem (l.foldl mergeStep ⟨[], [], 0⟩).categoryActivities c hcmem
    have hamcA : lookupA (l.foldl mergeStep ⟨[], [], 0⟩).categoryActivities c = amc := by
      rw [lookupA, hamc]
      rfl
    have hcount : lookup0 amc a = totalCount l c a := by
      have hstep := lookup0_fold_detail l [] c a
      rw [← hfold, hamcA] at hstep
      have hzero : lookup0 (lookupA ([] : List (String × List (String × ℚ))) c) a = 0 := by
        simp [lookupA, lookup0, mapFind]
      rw [hstep, hzero, zero_add]
    rw [hamcA] at hamem
    obtain ⟨cnt, hcnt⟩ := mapFind_isSome_of_mem amc a hamem
    have hcnteq : cnt = totalCount l c a := by
      rw [← hcount, lookup0, hcnt]
      rfl
    have hndamc : (keysOf amc).Nodup := by
      have := hndin c
      rw [hamcA] at this
      exact this
    rw [hdet]
    rw [filter_map_comm _ _ (fun p => p.1 == c) (fun x => rfl)]
    rw [filter_eq_single (l.foldl mergeStep ⟨[], [], 0⟩).categoryActivities c amc hndout hamc]
    rw [List.map_cons, List.map_nil, List.map_cons, List.map_nil]
    have hperm : ((amc.map (fun q => (⟨q.1, q.2⟩ : Activity))).insertionSort actGE).filter
          (fun x => x.activity == a)
        |>.Perm ((amc.map (fun q => (⟨q.1, q.2⟩ : Activity))).filter (fun x => x.activity == a)) :=
      (List.perm_insertionSort actGE _).filter _
    have hinner : (amc.map (fun q => (⟨q.1, q.2⟩ : Activity))).filter (fun x => x.activity == a)
        = [⟨a, cnt⟩] := by
      rw [filter_map_comm _ _ (fun q => q.1 == a) (fun x => rfl)]
      rw [filter_eq_single amc a cnt hndamc hcnt]
      rfl
    rw [hinner] at hperm
    have hsingle := List.perm_singleton.mp hperm
    rw [show ((⟨c, (amc.map (fun q => (⟨q.1, q.2⟩ : Activity))).insertionSort actGE⟩
        : DetailedReportData)).activities
      = (amc.map (fun q => (⟨q.1, q.2⟩ : Activity))).insertionSort actGE from rfl]
    rw [hsingle, hcnteq]
  · -- sorted descending within each category
    intro d hd
    rw [hdet] at hd
    obtain ⟨p, hp, hpd⟩ := List.mem_map.mp hd
    rw [← hpd]
    exact (List.sorted_insertionSort actGE
      (p.2.map (fun q => (⟨q.1, q.2⟩ : Activity)))).imp (fun h => h)

/-- Witness for C1 at a concrete two-report store. -/
theorem mergeReportData_aggregation_witness :
    appearsIn [rdWork, rdWork] "Work" "coding" ∧
    ((mergeReportData [rdWork, rdWork]).detailedReport.filter
        (fun d => d.category == "Work")).map
        (fun d => d.activities.filter (fun x => x.activity == "coding"))
      = [[⟨"coding", totalCount [rdWork, rdWork] "Work" "coding"⟩]] ∧
    ((mergeReportData [rdWork, rdWork]).pieChart.map PieChartData.value).sum
      = grandTotalOf [rdWork, rdWork] :=
  ⟨by decide,
   (mergeReportData_aggregation [rdWork, rdWork]).2.1 "Work" "coding" (by decide),
   (mergeReportData_aggregation [rdWork, rdWork]).1⟩
